import Mathlib

/-!
Verification development for the `pratt-expression` repository
(`src/pratt/full.py` and `src/pratt/basic.py`).

The Python sources are shallowly embedded as follows.

* Characters and the tokenizer regex `\s*(?:(\d+)|(\*\*|.))` (basic.py uses
  `\s*(?:(\d+)|(.))`, i.e. without the `\*\*` alternative) are modelled by a
  fuel-indexed scanner `scanF` over `List Char` that reproduces `re.findall`'s
  match-by-match behaviour, including the backtracking of the greedy `\s*`
  when the rest of the input is exhausted (a trailing whitespace run makes the
  single-character alternative `.` match the last non-newline whitespace
  character, which `tokenize` then rejects as an unknown operator).
* The lazy generator `tokenize` is modelled by a `Strm`: the tokens yielded
  before the generator either raises `SyntaxError("unknown operator")`
  (`lexErr = true`) or is exhausted after yielding the final `end_token`.
  Pulling from the stream (`next`) is the only way errors surface, exactly as
  with a Python generator.
* Python's unbounded numbers (ints, and the exact idealisation of float
  results of `/`, `~` and `**` as rationals, per spec §7 "reference semantics
  use unbounded/real arithmetic") are modelled by `PyNum`, an unnormalised
  fraction `num / den` with `den > 0` maintained by the operations.  All
  control-flow decisions of the source (zero tests, sign tests, integrality
  tests) are representation independent.
* Exceptions are modelled by the result type `Res`: `SyntaxError("unknown
  operator")` is `Err.unknownOperator`, `StopIteration` (pulling from the
  exhausted generator) is `Err.stopIteration`, `AttributeError` on a missing
  `nud`/`led`/`lbp` attribute is `Err.noNud`/`Err.noLed`/`Err.noLbp`,
  `SyntaxError("Expected ...")` raised by `match` is `Err.expectedToken`,
  `ZeroDivisionError` is `Err.divisionByZero` and the `ValueError`/`TypeError`
  of `math.factorial` on a negative or non-integral operand is
  `Err.domainError`.  `Err.nonIntPow` marks a real-valued power with a
  non-integral exponent, which falls outside the rational model (no claim
  exercises it).  `Err.outOfFuel` is an artefact of the fuel-indexed
  interpreter; all theorems below exhibit runs that never reach it.
* The mutually recursive functions `expression`, `nud`, `led`, `match` of the
  evaluator become the fuel-indexed `expr`, `nudF`, `ledF`, `lloop` acting on
  a state `St` = one current token (the global `token`) plus the remaining
  stream (the global `tokens`); `expression`'s advance-then-dispatch order is
  kept exactly (in particular the advance past the final `End` token happens
  before `End.nud` would ever be consulted).  Every recursive call, including
  the ones made from inside `nudF`/`ledF`, consumes one unit of fuel so that
  the mutual recursion is structural in the fuel; `parse` supplies more fuel
  than any run over its token stream can consume.
-/

namespace Pratt

/-- Python's `\s` on the ASCII range: space (32), tab (9), newline (10),
carriage return (13), vertical tab (11), form feed (12). -/
def isWsC (c : Char) : Bool :=
  c.toNat = 32 || c.toNat = 9 || c.toNat = 10 || c.toNat = 13 || c.toNat = 11 || c.toNat = 12

/-- Python's `\d` on the ASCII range: `'0'` (48) through `'9'` (57). -/
def isDigC (c : Char) : Bool := 48 ≤ c.toNat && c.toNat ≤ 57

/-- Numeric value of one decimal digit character. -/
def digValC (c : Char) : Nat := c.toNat - 48

/-- `int(...)` applied to a run of decimal digit characters. -/
def digitsVal (l : List Char) : Nat := l.foldl (fun a c => 10 * a + digValC c) 0

/-- One lexeme produced by a single `findall` match: a maximal digit run
(group 1), the two-character lexeme `**`, or a single character. -/
inductive Item where
  | num (n : Nat)
  | opCh (c : Char)
  | dstar
deriving DecidableEq, Repr

/-- The lexemes a trailing all-whitespace run produces.  The greedy `\s*`
backtracks until the single-character `.` can match, so the last whitespace
character that is not a newline is emitted as a one-character operator lexeme
(and then the remaining newlines match nothing); if the run is all newlines
nothing is emitted. -/
def trailingWs (l : List Char) : List Item :=
  match (l.filter (fun c => c ≠ '\n')).getLast? with
  | some c => [.opCh c]
  | none => []

/-- The sequence of matches of `\s*(?:(\d+)|(\*\*|.))` on `s`, decoded as
lexemes.  `two` selects whether the `\*\*` alternative is present (`full.py`)
or not (`basic.py`).  The fuel only serves structural recursion; every step
consumes at least one character, so `s.length + 1` fuel (see `scanFrom`)
always suffices. -/
def scanF (two : Bool) : Nat → List Char → List Item
  | 0, _ => []
  | fuel + 1, s =>
    match s.dropWhile isWsC with
    | [] => trailingWs (s.takeWhile isWsC)
    | c :: cs =>
      if isDigC c then
        .num (digitsVal (c :: cs.takeWhile isDigC)) :: scanF two fuel (cs.dropWhile isDigC)
      else if two && (c = '*' && cs.head? = some '*') then
        .dstar :: scanF two fuel cs.tail
      else
        .opCh c :: scanF two fuel cs

/-- All lexemes of `s` (the full `findall` result). -/
def scanFrom (two : Bool) (s : List Char) : List Item :=
  scanF two (s.length + 1) s

/-- Errors: the Python exceptions the two modules can raise, plus the two
model-level markers described in the header comment. -/
inductive Err where
  | unknownOperator
  | stopIteration
  | noNud
  | noLed
  | noLbp
  | expectedToken
  | domainError
  | divisionByZero
  | nonIntPow
  | outOfFuel
deriving DecidableEq, Repr

/-- Computation result: a value or a raised exception. -/
inductive Res (α : Type) where
  | ok (v : α)
  | err (e : Err)
deriving DecidableEq, Repr

def Res.bind {α β : Type} : Res α → (α → Res β) → Res β
  | .ok v, f => f v
  | .err e, _ => .err e

instance : Monad Res where
  pure := Res.ok
  bind := Res.bind

/-- Python number: an unnormalised exact fraction `num / den`, `den > 0`
maintained by all operations below.  Integer results always have `den = 1`. -/
structure PyNum where
  num : Int
  den : Nat
deriving DecidableEq, Repr

/-- The value of a non-negative integer literal (and of Python int results). -/
def natV (n : Nat) : PyNum := ⟨n, 1⟩

def intV (i : Int) : PyNum := ⟨i, 1⟩

def addV (x y : PyNum) : PyNum := ⟨x.num * y.den + y.num * x.den, x.den * y.den⟩

def subV (x y : PyNum) : PyNum := ⟨x.num * y.den - y.num * x.den, x.den * y.den⟩

def negV (x : PyNum) : PyNum := ⟨-x.num, x.den⟩

def mulV (x y : PyNum) : PyNum := ⟨x.num * y.num, x.den * y.den⟩

/-- Python `x / y`: `ZeroDivisionError` on a zero divisor, otherwise the exact
quotient (sign moved into the numerator so the denominator stays positive). -/
def divV (x y : PyNum) : Res PyNum :=
  if y.num = 0 then .err .divisionByZero
  else .ok ⟨x.num * y.den * y.num.sign, x.den * y.num.natAbs⟩

/-- `x` is an integral value (`den ∣ num`, i.e. an int or an integral float). -/
def isIntV (x : PyNum) : Bool := (x.den : Int) ∣ x.num

/-- The integer an integral `PyNum` denotes. -/
def toIntV (x : PyNum) : Int := x.num / (x.den : Int)

/-- Python `x ** y` in the exact model: integral non-negative exponents give
exact powers, integral negative exponents give the exact reciprocal power
(`ZeroDivisionError` on base zero); a non-integral exponent would be a real
power, outside the rational model. -/
def powV (x y : PyNum) : Res PyNum :=
  if isIntV y then
    let e : Int := toIntV y
    if 0 ≤ e then .ok ⟨x.num ^ e.toNat, x.den ^ e.toNat⟩
    else if x.num = 0 then .err .divisionByZero
    else .ok ⟨(x.den : Int) ^ e.natAbs * x.num.sign ^ e.natAbs, x.num.natAbs ^ e.natAbs⟩
  else .err .nonIntPow

/-- `math.factorial(x)`: raises (`ValueError`/`TypeError`, both `DomainError`
in the spec's taxonomy) unless `x` is an integral value `≥ 0`. -/
def facV (x : PyNum) : Res PyNum :=
  if isIntV x && 0 ≤ x.num then .ok (natV (toIntV x).toNat.factorial)
  else .err .domainError

namespace full

/-- The token classes of `full.py`.  `lit` is `literal_token` (its value is
`int(...)` of the digit run, hence a `Nat`). -/
inductive Tok where
  | lit (n : Nat)
  | add
  | sub
  | mul
  | div
  | inv
  | fac
  | pow
  | lparen
  | rparen
  | endT
deriving DecidableEq, Repr

/-- The `lbp` class attribute: `none` means the class has no `lbp` attribute
at all (`literal_token` and `operator_inv_token`), so reading `token.lbp`
raises `AttributeError`. -/
def lbpA : Tok → Option Nat
  | .lit _ => none
  | .add => some 10
  | .sub => some 10
  | .mul => some 20
  | .div => some 20
  | .inv => none
  | .fac => some 150
  | .pow => some 30
  | .lparen => some 0
  | .rparen => some 0
  | .endT => some 0

/-- The token the `tokenize` loop yields for a lexeme (the `elif` chain of
`full.tokenize`), `none` for the `raise SyntaxError("unknown operator")`
branch. -/
def itemTok : Item → Option Tok
  | .num n => some (.lit n)
  | .dstar => some .pow
  | .opCh c =>
    if c = '+' then some .add
    else if c = '-' then some .sub
    else if c = '*' then some .mul
    else if c = '/' then some .div
    else if c = '~' then some .inv
    else if c = '!' then some .fac
    else if c = '(' then some .lparen
    else if c = ')' then some .rparen
    else none

/-- The state of the `tokenize` generator: the tokens it will yield, and
whether it then raises the unknown-operator `SyntaxError` (`lexErr = true`)
or is simply exhausted after the final `end_token` (already included in
`toks`). -/
structure Strm where
  toks : List Tok
  lexErr : Bool
deriving DecidableEq, Repr

/-- Building the generator from the lexemes: tokens are yielded until the
first unrecognised lexeme (which raises), otherwise `end_token` ends the
stream. -/
def buildStrm : List Item → Strm
  | [] => ⟨[.endT], false⟩
  | i :: is =>
    match itemTok i with
    | some t => let s := buildStrm is; ⟨t :: s.toks, s.lexErr⟩
    | none => ⟨[], true⟩

/-- `tokenize(program)` as a stream. -/
def tokStream (s : String) : Strm := buildStrm (scanFrom true s.data)

/-- `next(tokens)`: the next token, or the pending exception. -/
def nextT : Strm → Res (Tok × Strm)
  | ⟨[], true⟩ => .err .unknownOperator
  | ⟨[], false⟩ => .err .stopIteration
  | ⟨t :: ts, e⟩ => .ok (t, ⟨ts, e⟩)

/-- Parser cursor: the global `token` plus the remaining generator. -/
structure St where
  cur : Tok
  rest : Strm
deriving DecidableEq, Repr

/-- `t = token; token = next(tokens)`: returns the consumed token and the
advanced state. -/
def advance (st : St) : Res (Tok × St) := do
  let (t, s) ← nextT st.rest
  .ok (st.cur, ⟨t, s⟩)

mutual

/-- `expression(rbp)` from `full.py`: consume the current token, apply its
`nud`, then loop on `led`s while `rbp < token.lbp`. -/
def expr : Nat → Nat → St → Res (PyNum × St)
  | 0, _, _ => .err .outOfFuel
  | fuel + 1, rbp, st => do
    let (t, st1) ← advance st
    let (left, st2) ← nudF fuel t st1
    lloop fuel rbp left st2
termination_by structural f => f

/-- The `while rbp < token.lbp` loop of `expression`.  Reading `token.lbp`
raises `AttributeError` when the class has no `lbp` attribute. -/
def lloop : Nat → Nat → PyNum → St → Res (PyNum × St)
  | 0, _, _, _ => .err .outOfFuel
  | fuel + 1, rbp, left, st =>
    match lbpA st.cur with
    | none => .err .noLbp
    | some l =>
      if rbp < l then do
        let (t, st1) ← advance st
        let (left1, st2) ← ledF fuel t left st1
        lloop fuel rbp left1 st2
      else .ok (left, st)
termination_by structural f => f

/-- The `nud` methods of the token classes of `full.py`; classes without a
`nud` raise `AttributeError`. -/
def nudF : Nat → Tok → St → Res (PyNum × St)
  | _, .lit n, st => .ok (natV n, st)
  | f + 1, .add, st => expr f 100 st
  | f + 1, .sub, st => do
    let (v, st1) ← expr f 100 st
    .ok (negV v, st1)
  | f + 1, .inv, st => do
    let (v, st1) ← expr f 100 st
    match divV (natV 1) v with
    | .ok w => .ok (w, st1)
    | .err e => .err e
  | f + 1, .lparen, st => do
    let (v, st1) ← expr f 0 st
    if st1.cur = .rparen then do
      let (_, st2) ← advance st1
      .ok (v, st2)
    else .err .expectedToken
  | 0, .add, _ => .err .outOfFuel
  | 0, .sub, _ => .err .outOfFuel
  | 0, .inv, _ => .err .outOfFuel
  | 0, .lparen, _ => .err .outOfFuel
  | _, _, _ => .err .noNud
termination_by structural f => f

/-- The `led` methods of the token classes of `full.py`; classes without a
`led` raise `AttributeError`. -/
def ledF : Nat → Tok → PyNum → St → Res (PyNum × St)
  | f + 1, .add, left, st => do
    let (v, st1) ← expr f 10 st
    .ok (addV left v, st1)
  | f + 1, .sub, left, st => do
    let (v, st1) ← expr f 10 st
    .ok (subV left v, st1)
  | f + 1, .mul, left, st => do
    let (v, st1) ← expr f 20 st
    .ok (mulV left v, st1)
  | f + 1, .div, left, st => do
    let (v, st1) ← expr f 20 st
    match divV left v with
    | .ok w => .ok (w, st1)
    | .err e => .err e
  | _, .fac, left, st =>
    (match facV left with
     | .ok w => .ok (w, st)
     | .err e => .err e)
  | f + 1, .pow, left, st => do
    let (v, st1) ← expr f (30 - 1) st
    match powV left v with
    | .ok w => .ok (w, st1)
    | .err e => .err e
  | 0, .add, _, _ => .err .outOfFuel
  | 0, .sub, _, _ => .err .outOfFuel
  | 0, .mul, _, _ => .err .outOfFuel
  | 0, .div, _, _ => .err .outOfFuel
  | 0, .pow, _, _ => .err .outOfFuel
  | _, _, _, _ => .err .noLed
termination_by structural f => f

end

/-- `parse(program)`: build the generator, pull the first token, evaluate
`expression()` (default `rbp = 0`).  The fuel bound is generous; every
theorem below exhibits runs that complete within it. -/
def parse (s : String) : Res PyNum := do
  let str := tokStream s
  let (t, str1) ← nextT str
  let (v, _) ← expr (2 * str.toks.length + 8) 0 ⟨t, str1⟩
  .ok v

end full

namespace basic

/-- The token classes of `basic.py`. -/
inductive Tok where
  | lit (n : Nat)
  | add
  | mul
  | endT
deriving DecidableEq, Repr

/-- `lbp` class attribute of `basic.py`'s classes (`literal_token` has
none). -/
def lbpA : Tok → Option Nat
  | .lit _ => none
  | .add => some 10
  | .mul => some 20
  | .endT => some 0

/-- The token `basic.tokenize` yields for a lexeme (`\*\*` is not in the
pattern of `basic.py`, so `Item.dstar` never occurs). -/
def itemTok : Item → Option Tok
  | .num n => some (.lit n)
  | .dstar => none
  | .opCh c =>
    if c = '+' then some .add
    else if c = '*' then some .mul
    else none

structure Strm where
  toks : List Tok
  lexErr : Bool
deriving DecidableEq, Repr

def buildStrm : List Item → Strm
  | [] => ⟨[.endT], false⟩
  | i :: is =>
    match itemTok i with
    | some t => let s := buildStrm is; ⟨t :: s.toks, s.lexErr⟩
    | none => ⟨[], true⟩

/-- `basic.tokenize(program)`: the pattern is `\s*(?:(\d+)|(.))`. -/
def tokStream (s : String) : Strm := buildStrm (scanFrom false s.data)

def nextT : Strm → Res (Tok × Strm)
  | ⟨[], true⟩ => .err .unknownOperator
  | ⟨[], false⟩ => .err .stopIteration
  | ⟨t :: ts, e⟩ => .ok (t, ⟨ts, e⟩)

structure St where
  cur : Tok
  rest : Strm
deriving DecidableEq, Repr

def advance (st : St) : Res (Tok × St) := do
  let (t, s) ← nextT st.rest
  .ok (st.cur, ⟨t, s⟩)

mutual

/-- `expression(rbp)` from `basic.py` (same text as in `full.py`). -/
def expr : Nat → Nat → St → Res (PyNum × St)
  | 0, _, _ => .err .outOfFuel
  | fuel + 1, rbp, st => do
    let (t, st1) ← advance st
    let (left, st2) ← nudF fuel t st1
    lloop fuel rbp left st2
termination_by structural f => f

def lloop : Nat → Nat → PyNum → St → Res (PyNum × St)
  | 0, _, _, _ => .err .outOfFuel
  | fuel + 1, rbp, left, st =>
    match lbpA st.cur with
    | none => .err .noLbp
    | some l =>
      if rbp < l then do
        let (t, st1) ← advance st
        let (left1, st2) ← ledF fuel t left st1
        lloop fuel rbp left1 st2
      else .ok (left, st)
termination_by structural f => f

/-- The `nud` methods of `basic.py`: only `literal_token` has one. -/
def nudF : Nat → Tok → St → Res (PyNum × St)
  | _, .lit n, st => .ok (natV n, st)
  | _, _, _ => .err .noNud

/-- The `led` methods of `basic.py`. -/
def ledF : Nat → Tok → PyNum → St → Res (PyNum × St)
  | f + 1, .add, left, st => do
    let (v, st1) ← expr f 10 st
    .ok (addV left v, st1)
  | f + 1, .mul, left, st => do
    let (v, st1) ← expr f 20 st
    .ok (mulV left v, st1)
  | 0, .add, _, _ => .err .outOfFuel
  | 0, .mul, _, _ => .err .outOfFuel
  | _, _, _, _ => .err .noLed
termination_by structural f => f

end

/-- `basic.parse(program)`. -/
def parse (s : String) : Res PyNum := do
  let str := tokStream s
  let (t, str1) ← nextT str
  let (v, _) ← expr (2 * str.toks.length + 8) 0 ⟨t, str1⟩
  .ok v

end basic

/-! ### Input families used by the theorems

To quantify over input strings we build them from lexemes: a decimal
numeral, a single operator character, or the two-character `**`, each
optionally preceded by a whitespace gap. -/

/-- The character of one decimal digit. -/
def dChar (d : Nat) : Char :=
  match d with
  | 0 => '0' | 1 => '1' | 2 => '2' | 3 => '3' | 4 => '4'
  | 5 => '5' | 6 => '6' | 7 => '7' | 8 => '8' | _ => '9'

/-- The decimal numeral of `n` (most significant digit first). -/
def numeral (n : Nat) : List Char :=
  if n = 0 then ['0'] else ((Nat.digits 10 n).map dChar).reverse

/-- A lexeme: a numeral, a single character, or `**`. -/
inductive Lx where
  | num (n : Nat)
  | sym (c : Char)
  | dstar
deriving DecidableEq, Repr

def lxStr : Lx → List Char
  | .num n => numeral n
  | .sym c => [c]
  | .dstar => ['*', '*']

/-- The `Item` the scanner produces for one lexeme. -/
def lxItem : Lx → Item
  | .num n => .num n
  | .sym c => .opCh c
  | .dstar => .dstar

/-- A character lexeme must be a single non-whitespace, non-digit
character to lex as the `.` alternative of the pattern. -/
def lxOk : Lx → Bool
  | .num _ => true
  | .sym c => !isWsC c && !isDigC c
  | .dstar => true

def startsDig : Lx → Bool
  | .num _ => true
  | .sym c => isDigC c
  | .dstar => false

def startsStar : Lx → Bool
  | .num _ => false
  | .sym c => c = '*'
  | .dstar => true

/-- Adjacent lexemes that would merge when juxtaposed without whitespace:
two digit runs, or a single `*` in front of a lexeme starting with `*`
(which the greedy `\*\*` would turn into a `**` match). -/
def needSep (a b : Lx) : Bool :=
  match a with
  | .num _ => startsDig b
  | .sym c => c = '*' && startsStar b
  | .dstar => false

/-- Render a list of lexemes, each preceded by its whitespace gap. -/
def renderG : List (List Char × Lx) → List Char
  | [] => []
  | (g, a) :: rest => g ++ (lxStr a ++ renderG rest)

/-- Every gap is whitespace and every lexeme is well-formed. -/
def wfLxs (L : List (List Char × Lx)) : Bool :=
  L.all fun p => p.1.all isWsC && lxOk p.2

/-- Adjacent lexemes that would merge are separated by a non-empty gap. -/
def sepsOk : List (List Char × Lx) → Bool
  | [] => true
  | [_] => true
  | (_, a) :: (g2, b) :: rest => (!needSep a b || !g2.isEmpty) && sepsOk ((g2, b) :: rest)

/-- No `**` lexeme (required when scanning with `basic.py`'s pattern). -/
def noDstar (L : List (List Char × Lx)) : Bool := L.all fun p => p.2 ≠ Lx.dstar

/-! ### Binary `+`/`*` chains and their standard arithmetic value -/

/-- An operator entry of a chain: `true` is `*`, `false` is `+`, paired with
the literal that follows it. -/
def opLx (b : Bool) : Lx := .sym (if b then '*' else '+')

/-- The lexemes of `n0 op1 n1 ... opk nk` with no whitespace. -/
def chainLx (n0 : Nat) (ops : List (Bool × Nat)) : List (List Char × Lx) :=
  ([], .num n0) :: ops.flatMap fun p => [([], opLx p.1), ([], .num p.2)]

/-- The input string `n0 op1 n1 ... opk nk`. -/
def chainStr (n0 : Nat) (ops : List (Bool × Nat)) : String :=
  ⟨renderG (chainLx n0 ops)⟩

/-- Standard left-to-right arithmetic with `*` binding tighter than `+`:
`s` is the finished sum, `p` the product run currently being collected. -/
def sumProd (s p : Nat) : List (Bool × Nat) → Nat
  | [] => s + p
  | (true, n) :: rest => sumProd s (p * n) rest
  | (false, n) :: rest => sumProd (s + p) n rest

/-- The standard arithmetic value of the chain `n0 op1 n1 ... opk nk`. -/
def refVal (n0 : Nat) (ops : List (Bool × Nat)) : Nat := sumProd 0 n0 ops

/-- The maximal `*`-run at the head of a chain remainder: its product
(starting from `acc`) and the rest. -/
def prodRunN (acc : Nat) : List (Bool × Nat) → Nat × List (Bool × Nat)
  | [] => (acc, [])
  | (b, n) :: rest => if b then prodRunN (acc * n) rest else (acc, (b, n) :: rest)

/-! ### `**` chains -/

/-- The lexemes of `a ** v1 ** v2 ** ... ** vk`. -/
def powLx (a : Nat) (vs : List Nat) : List (List Char × Lx) :=
  ([], .num a) :: vs.flatMap fun v => [([], .dstar), ([], .num v)]

def powStr (a : Nat) (vs : List Nat) : String := ⟨renderG (powLx a vs)⟩

/-- Right-associated exponentiation `a ^ (v1 ^ (v2 ^ ...))`. -/
def powFoldr (a : Nat) : List Nat → Nat
  | [] => a
  | v :: vs => a ^ powFoldr v vs

/-! ### Token-list forms of the above, and parser-state helpers -/

namespace full

def opTok (b : Bool) : Tok := if b then .mul else .add

/-- The token list of a chain remainder followed by a tail `tl`. -/
def chainT (ops : List (Bool × Nat)) (tl : List Tok) : List Tok :=
  (ops.flatMap fun p => [opTok p.1, .lit p.2]) ++ tl

/-- The token list of a `**` chain remainder followed by a tail `tl`. -/
def powT (vs : List Nat) (tl : List Tok) : List Tok :=
  (vs.flatMap fun v => [Tok.pow, .lit v]) ++ tl

/-- Parser state whose current token is the head of `l` (used only with
non-empty `l`) and whose stream holds the rest. -/
def stOf (l : List Tok) (e : Bool) : St := ⟨l.headD .endT, ⟨l.tail, e⟩⟩

end full

namespace basic

def opTok (b : Bool) : Tok := if b then .mul else .add

def chainT (ops : List (Bool × Nat)) (tl : List Tok) : List Tok :=
  (ops.flatMap fun p => [opTok p.1, .lit p.2]) ++ tl

def stOf (l : List Tok) (e : Bool) : St := ⟨l.headD .endT, ⟨l.tail, e⟩⟩

end basic

/-! ## Character, list and numeral facts -/

theorem ws_not_dig {c : Char} (h : isWsC c = true) : isDigC c = false := by
  simp only [isWsC, isDigC, Bool.or_eq_true, decide_eq_true_eq] at *
  simp only [Bool.and_eq_false_iff, decide_eq_false_iff_not]
  omega

theorem dig_not_ws {c : Char} (h : isDigC c = true) : isWsC c = false := by
  simp only [isWsC, isDigC, Bool.and_eq_true, decide_eq_true_eq] at *
  simp only [Bool.or_eq_false_iff, decide_eq_false_iff_not]
  omega

theorem dig_ne_star {c : Char} (h : isDigC c = true) : (c = '*') = False := by
  simp only [eq_iff_iff, iff_false]
  intro he
  subst he
  exact absurd h (by decide)

theorem dropWhile_append_all {p : Char → Bool} {g s : List Char}
    (h : ∀ c ∈ g, p c = true) : (g ++ s).dropWhile p = s.dropWhile p := by
  induction g with
  | nil => rfl
  | cons c cs ih =>
    simp only [List.cons_append, List.dropWhile_cons, h c (List.mem_cons_self c cs)]
    exact ih fun x hx => h x (List.mem_cons_of_mem c hx)

theorem takeWhile_append_all {p : Char → Bool} {g s : List Char}
    (h : ∀ c ∈ g, p c = true) : (g ++ s).takeWhile p = g ++ s.takeWhile p := by
  induction g with
  | nil => rfl
  | cons c cs ih =>
    simp only [List.cons_append, List.takeWhile_cons, h c (List.mem_cons_self c cs), if_true]
    rw [ih fun x hx => h x (List.mem_cons_of_mem c hx)]

theorem takeWhile_eq_nil {p : Char → Bool} {l : List Char}
    (h : ∀ c, l.head? = some c → p c = false) : l.takeWhile p = [] := by
  cases l with
  | nil => rfl
  | cons c cs => simp [List.takeWhile_cons, h c rfl]

theorem dropWhile_eq_self {p : Char → Bool} {l : List Char}
    (h : ∀ c, l.head? = some c → p c = false) : l.dropWhile p = l := by
  cases l with
  | nil => rfl
  | cons c cs => simp [List.dropWhile_cons, h c rfl]

theorem dChar_digit {d : Nat} (h : d < 10) : isDigC (dChar d) = true := by
  interval_cases d <;> decide

theorem digValC_dChar {d : Nat} (h : d < 10) : digValC (dChar d) = d := by
  interval_cases d <;> decide

theorem numeral_ne_nil (n : Nat) : numeral n ≠ [] := by
  unfold numeral
  split
  · simp
  · simp [Nat.digits_ne_nil_iff_ne_zero, *]

theorem numeral_all_dig (n : Nat) : ∀ c ∈ numeral n, isDigC c = true := by
  unfold numeral
  split
  · intro c hc
    simp only [List.mem_singleton] at hc
    subst hc
    decide
  · intro c hc
    simp only [List.mem_reverse, List.mem_map] at hc
    obtain ⟨d, hd, rfl⟩ := hc
    exact dChar_digit (Nat.digits_lt_base (by norm_num) hd)

theorem foldr_digits_val (l : List Nat) (h : ∀ d ∈ l, d < 10) :
    l.foldr (fun d acc => 10 * acc + digValC (dChar d)) 0 = Nat.ofDigits 10 l := by
  induction l with
  | nil => simp [Nat.ofDigits]
  | cons d ds ih =>
    simp only [List.foldr_cons, Nat.ofDigits_cons,
      digValC_dChar (h d (List.mem_cons_self d ds)),
      ih fun x hx => h x (List.mem_cons_of_mem d hx)]
    ring

theorem head?_append_ne_nil {l l2 : List Char} (h : l ≠ []) :
    (l ++ l2).head? = l.head? := by
  cases l with
  | nil => exact absurd rfl h
  | cons a as => rfl

theorem mem_of_head? {l : List Char} {c : Char} (h : l.head? = some c) : c ∈ l := by
  cases l with
  | nil => simp at h
  | cons a as =>
    simp only [List.head?_cons, Option.some.injEq] at h
    subst h
    exact List.mem_cons_self a as

theorem star_not_ws {c : Char} (h : isWsC c = true) : (c = '*') = False := by
  simp only [eq_iff_iff, iff_false]
  intro he
  subst he
  exact absurd h (by decide)

theorem digitsVal_numeral (n : Nat) : digitsVal (numeral n) = n := by
  unfold numeral
  split
  · rename_i h
    subst h
    decide
  · rw [digitsVal, List.foldl_reverse, List.foldr_map]
    have := foldr_digits_val (Nat.digits 10 n)
      (fun d hd => Nat.digits_lt_base (by norm_num) hd)
    simp only [this, Nat.ofDigits_digits]

/-! ## Scanner lemmas -/

theorem lxStr_ne_nil (a : Lx) : lxStr a ≠ [] := by
  cases a with
  | num n => exact numeral_ne_nil n
  | sym c => simp [lxStr]
  | dstar => simp [lxStr]

theorem lxStr_head_ws {a : Lx} (h : lxOk a = true) :
    ∀ c, (lxStr a).head? = some c → isWsC c = false := by
  intro c hc
  cases a with
  | num n => exact dig_not_ws (numeral_all_dig n c (mem_of_head? hc))
  | sym ch =>
    simp only [lxStr, List.head?_cons, Option.some.injEq] at hc
    subst hc
    simp only [lxOk, Bool.and_eq_true, Bool.not_eq_true'] at h
    exact h.1
  | dstar =>
    simp only [lxStr, List.head?_cons, Option.some.injEq] at hc
    subst hc
    decide

theorem lxStr_head_dig {a : Lx} (h : lxOk a = true) (h2 : startsDig a = false) :
    ∀ c, (lxStr a).head? = some c → isDigC c = false := by
  intro c hc
  cases a with
  | num n => simp [startsDig] at h2
  | sym ch =>
    simp only [lxStr, List.head?_cons, Option.some.injEq] at hc
    subst hc
    exact h2
  | dstar =>
    simp only [lxStr, List.head?_cons, Option.some.injEq] at hc
    subst hc
    decide

theorem lxStr_head_star {a : Lx} (h2 : startsStar a = false) :
    ∀ c, (lxStr a).head? = some c → (c = '*') = False := by
  intro c hc
  cases a with
  | num n => exact dig_ne_star (numeral_all_dig n c (mem_of_head? hc))
  | sym ch =>
    simp only [lxStr, List.head?_cons, Option.some.injEq] at hc
    subst hc
    simp only [startsStar, decide_eq_false_iff_not] at h2
    exact eq_false h2
  | dstar => simp [startsStar] at h2

theorem renderG_head_not_dig {g : List Char} {b : Lx} {rest : List (List Char × Lx)}
    (hwf : wfLxs ((g, b) :: rest) = true) (hsep : g = [] → startsDig b = false) :
    ∀ c, (renderG ((g, b) :: rest)).head? = some c → isDigC c = false := by
  intro c hc
  simp only [wfLxs, List.all_cons, Bool.and_eq_true] at hwf
  cases g with
  | nil =>
    rw [renderG, List.nil_append, head?_append_ne_nil (lxStr_ne_nil b)] at hc
    exact lxStr_head_dig hwf.1.2 (hsep rfl) c hc
  | cons w ws =>
    rw [renderG] at hc
    simp only [List.cons_append, List.head?_cons, Option.some.injEq] at hc
    subst hc
    refine ws_not_dig ?_
    have := hwf.1.1
    simp only [List.all_cons, Bool.and_eq_true] at this
    exact this.1

theorem renderG_head_not_star {g : List Char} {b : Lx} {rest : List (List Char × Lx)}
    (hwf : wfLxs ((g, b) :: rest) = true) (hsep : g = [] → startsStar b = false) :
    ∀ c, (renderG ((g, b) :: rest)).head? = some c → (c = '*') = False := by
  intro c hc
  simp only [wfLxs, List.all_cons, Bool.and_eq_true] at hwf
  cases g with
  | nil =>
    rw [renderG, List.nil_append, head?_append_ne_nil (lxStr_ne_nil b)] at hc
    exact lxStr_head_star (hsep rfl) c hc
  | cons w ws =>
    rw [renderG] at hc
    simp only [List.cons_append, List.head?_cons, Option.some.injEq] at hc
    subst hc
    refine star_not_ws ?_
    have := hwf.1.1
    simp only [List.all_cons, Bool.and_eq_true] at this
    exact this.1

theorem scanF_nil (two : Bool) (f : Nat) (s : List Char) (h : s.dropWhile isWsC = []) :
    scanF two (f + 1) s = trailingWs (s.takeWhile isWsC) := by
  simp only [scanF, h]

theorem scanF_cons (two : Bool) (f : Nat) (s : List Char) (c : Char) (cs : List Char)
    (h : s.dropWhile isWsC = c :: cs) :
    scanF two (f + 1) s =
      if isDigC c then
        .num (digitsVal (c :: cs.takeWhile isDigC)) :: scanF two f (cs.dropWhile isDigC)
      else if two && (c = '*' && cs.head? = some '*') then
        .dstar :: scanF two f cs.tail
      else
        .opCh c :: scanF two f cs := by
  simp only [scanF, h]

/-- The scanner on a rendered lexeme list produces exactly the lexemes'
items: whitespace gaps are skipped, digit runs are maximal, and `**` (when
the pattern has it) is matched greedily. -/
theorem scanF_renderG (two : Bool) :
    ∀ (L : List (List Char × Lx)) (fuel : Nat),
      wfLxs L = true → sepsOk L = true → (two = false → noDstar L = true) →
      (renderG L).length < fuel →
      scanF two fuel (renderG L) = L.map fun p => lxItem p.2 := by
  intro L
  induction L with
  | nil =>
    intro fuel _ _ _ hlen
    cases fuel with
    | zero => exact absurd hlen (by omega)
    | succ f => simp [renderG, scanF, trailingWs]
  | cons p rest ih =>
    obtain ⟨g, a⟩ := p
    intro fuel hwf hsep hds hlen
    cases fuel with
    | zero => exact absurd hlen (by omega)
    | succ f =>
    have hwf0 := hwf
    simp only [wfLxs, List.all_cons, Bool.and_eq_true] at hwf
    obtain ⟨⟨hgws, hok⟩, hwfr'⟩ := hwf
    have hg : ∀ c ∈ g, isWsC c = true := by
      simpa only [List.all_eq_true] using hgws
    have hwfr : wfLxs rest = true := hwfr'
    have hsepr : sepsOk rest = true := by
      cases rest with
      | nil => rfl
      | cons q r2 =>
        obtain ⟨g2, b⟩ := q
        simp only [sepsOk, Bool.and_eq_true] at hsep
        exact hsep.2
    have hpair : ∀ g2 b r2, rest = (g2, b) :: r2 → g2 = [] → needSep a b = false := by
      intro g2 b r2 hr hg2
      subst hr
      simp only [sepsOk, Bool.and_eq_true, Bool.or_eq_true, Bool.not_eq_true'] at hsep
      rcases hsep.1 with h1 | h1
      · exact h1
      · subst hg2
        simp at h1
    have hdsr : two = false → noDstar rest = true := by
      intro h2
      have := hds h2
      simp only [noDstar, List.all_cons, Bool.and_eq_true] at this
      exact this.2
    have hadst : two = false → a ≠ Lx.dstar := by
      intro h2
      have := hds h2
      simp only [noDstar, List.all_cons, Bool.and_eq_true, decide_eq_true_eq] at this
      exact this.1
    have hlen' : (renderG rest).length + (lxStr a).length ≤ f := by
      rw [renderG] at hlen
      simp only [List.length_append] at hlen
      omega
    have hlxlen : 1 ≤ (lxStr a).length := by
      have := lxStr_ne_nil a
      cases h : lxStr a with
      | nil => exact absurd h this
      | cons x xs => simp
    have hdrop : (renderG ((g, a) :: rest)).dropWhile isWsC = lxStr a ++ renderG rest := by
      rw [renderG, dropWhile_append_all hg]
      refine dropWhile_eq_self fun c hc => ?_
      rw [head?_append_ne_nil (lxStr_ne_nil a)] at hc
      exact lxStr_head_ws hok c hc
    cases a with
    | num n =>
      obtain ⟨d, ds, hnum⟩ : ∃ d ds, numeral n = d :: ds := by
        cases h : numeral n with
        | nil => exact absurd h (numeral_ne_nil n)
        | cons d ds => exact ⟨d, ds, rfl⟩
      have hd : isDigC d = true :=
        numeral_all_dig n d (by rw [hnum]; exact List.mem_cons_self _ _)
      have hds' : ∀ c ∈ ds, isDigC c = true := fun c hc =>
        numeral_all_dig n c (by rw [hnum]; exact List.mem_cons_of_mem _ hc)
      have hR : ∀ c, (renderG rest).head? = some c → isDigC c = false := by
        cases rest with
        | nil => intro c hc; simp [renderG] at hc
        | cons q r2 =>
          obtain ⟨g2, b⟩ := q
          refine renderG_head_not_dig hwfr fun hg2 => ?_
          have := hpair g2 b r2 rfl hg2
          simpa only [needSep] using this
      have hdrop2 : (renderG ((g, Lx.num n) :: rest)).dropWhile isWsC =
          d :: (ds ++ renderG rest) := by
        rw [hdrop]
        simp only [lxStr, hnum, List.cons_append]
      rw [scanF_cons two f _ d (ds ++ renderG rest) hdrop2, if_pos hd]
      rw [takeWhile_append_all hds', takeWhile_eq_nil hR, List.append_nil]
      rw [dropWhile_append_all hds', dropWhile_eq_self hR]
      rw [← hnum, digitsVal_numeral]
      rw [ih f hwfr hsepr hdsr (by simp only [lxStr, hnum] at hlxlen hlen' ⊢; omega)]
      simp [lxItem]
    | sym ch =>
      have hok' : isWsC ch = false ∧ isDigC ch = false := by
        simpa only [lxOk, Bool.and_eq_true, Bool.not_eq_true'] using hok
      have hdrop2 : (renderG ((g, Lx.sym ch) :: rest)).dropWhile isWsC =
          ch :: renderG rest := by
        rw [hdrop]
        simp only [lxStr, List.cons_append, List.nil_append]
      rw [scanF_cons two f _ ch (renderG rest) hdrop2, if_neg (by simp [hok'.2])]
      have hcond : (decide (ch = '*') && decide ((renderG rest).head? = some '*')) = false := by
        by_cases hch : ch = '*'
        · subst hch
          simp only [decide_eq_true_eq, Bool.true_and, decide_True]
          cases hRh : (renderG rest).head? with
          | none => simp
          | some c =>
            have hcs : (c = '*') = False := by
              cases rest with
              | nil => simp [renderG] at hRh
              | cons q r2 =>
                obtain ⟨g2, b⟩ := q
                refine renderG_head_not_star hwfr (fun hg2 => ?_) c hRh
                have := hpair g2 b r2 rfl hg2
                simpa only [needSep, Bool.and_eq_false_iff, decide_eq_false_iff_not,
                  decide_True, Bool.true_and] using this
            simp [hcs]
        · simp [hch]
      rw [if_neg (by simp only [hcond, Bool.and_false]; exact Bool.false_ne_true)]
      rw [ih f hwfr hsepr hdsr (by simp only [lxStr, List.length_cons] at hlxlen hlen' ⊢; omega)]
      simp [lxItem]
    | dstar =>
      cases two with
      | false => exact absurd rfl (hadst rfl)
      | true =>
        have hdrop2 : (renderG ((g, Lx.dstar) :: rest)).dropWhile isWsC =
            '*' :: ('*' :: renderG rest) := by
          rw [hdrop]
          simp only [lxStr, List.cons_append, List.nil_append]
        rw [scanF_cons true f _ '*' ('*' :: renderG rest) hdrop2, if_neg (by decide)]
        rw [if_pos (by simp)]
        simp only [List.tail_cons]
        rw [ih f hwfr hsepr hdsr (by simp only [lxStr, List.length_cons] at hlen' ⊢; omega)]
        simp [lxItem]

/-- `scanFrom` on a rendered lexeme list. -/
theorem scanFrom_renderG (two : Bool) (L : List (List Char × Lx))
    (h1 : wfLxs L = true) (h2 : sepsOk L = true) (h3 : two = false → noDstar L = true) :
    scanFrom two (renderG L) = L.map fun p => lxItem p.2 :=
  scanF_renderG two L _ h1 h2 h3 (Nat.lt_succ_self _)

/-! ## Token streams of the input families -/

theorem wfLxs_cons (p : List Char × Lx) (L : List (List Char × Lx)) :
    wfLxs (p :: L) = ((p.1.all isWsC && lxOk p.2) && wfLxs L) := by
  simp [wfLxs]

theorem wfLxs_append (L1 L2 : List (List Char × Lx)) :
    wfLxs (L1 ++ L2) = (wfLxs L1 && wfLxs L2) := by
  simp [wfLxs, List.all_append]

theorem chainFlat_wf (ops : List (Bool × Nat)) :
    wfLxs (ops.flatMap fun p => [([], opLx p.1), ([], Lx.num p.2)]) = true := by
  induction ops with
  | nil => rfl
  | cons q rest ih =>
    obtain ⟨b, m⟩ := q
    rw [List.flatMap_cons, wfLxs_append, ih]
    cases b <;> simp [wfLxs, opLx, lxOk] <;> exact ⟨by decide, by decide⟩

theorem chainLx_wf (n0 : Nat) (ops : List (Bool × Nat)) :
    wfLxs (chainLx n0 ops) = true := by
  rw [chainLx, wfLxs_cons, chainFlat_wf]
  simp [lxOk]

theorem chainFlat_seps (n : Nat) (ops : List (Bool × Nat)) :
    sepsOk (([], Lx.num n) :: ops.flatMap fun p => [([], opLx p.1), ([], Lx.num p.2)]) =
      true := by
  induction ops generalizing n with
  | nil => rfl
  | cons q rest ih =>
    obtain ⟨b, m⟩ := q
    rw [List.flatMap_cons]
    simp only [List.cons_append, List.nil_append]
    have h1 : needSep (Lx.num n) (opLx b) = false := by cases b <;> rfl
    have h2 : needSep (opLx b) (Lx.num m) = false := by cases b <;> rfl
    simp only [sepsOk, h1, h2, Bool.not_false, Bool.true_or, Bool.true_and]
    exact ih m

theorem chainLx_noDstar (n0 : Nat) (ops : List (Bool × Nat)) :
    noDstar (chainLx n0 ops) = true := by
  rw [chainLx]
  simp only [noDstar, List.all_cons, Bool.and_eq_true, List.all_flatMap]
  refine ⟨by simp, ?_⟩
  rw [List.all_eq_true]
  intro q _
  cases q.1 <;> simp [opLx]

theorem powLx_wf (a : Nat) (vs : List Nat) : wfLxs (powLx a vs) = true := by
  rw [powLx, wfLxs_cons]
  have : wfLxs (vs.flatMap fun v => [([], Lx.dstar), ([], Lx.num v)]) = true := by
    induction vs with
    | nil => rfl
    | cons v rest ih => rw [List.flatMap_cons, wfLxs_append, ih]; simp [wfLxs, lxOk]
  rw [this]
  simp [lxOk]

theorem powLx_seps (a : Nat) (vs : List Nat) : sepsOk (powLx a vs) = true := by
  rw [powLx]
  induction vs generalizing a with
  | nil => rfl
  | cons v rest ih =>
    rw [List.flatMap_cons]
    simp only [List.cons_append, List.nil_append]
    simpa [sepsOk, needSep, startsDig, startsStar] using ih v

namespace full

theorem buildStrm_append {l1 : List Item} {m : List Item} {T : List Tok}
    (h : l1.map itemTok = T.map some) :
    buildStrm (l1 ++ m) = ⟨T ++ (buildStrm m).toks, (buildStrm m).lexErr⟩ := by
  induction l1 generalizing T with
  | nil =>
    cases T with
    | nil => rfl
    | cons t T' => simp at h
  | cons i l1 ih =>
    cases T with
    | nil => simp at h
    | cons t T' =>
      simp only [List.map_cons, List.cons.injEq] at h
      simp only [List.cons_append, buildStrm, h.1, List.append_eq, ih h.2]

theorem buildStrm_all {l1 : List Item} {T : List Tok}
    (h : l1.map itemTok = T.map some) :
    buildStrm l1 = ⟨T ++ [.endT], false⟩ := by
  have := buildStrm_append (m := []) h
  simpa only [List.append_nil, buildStrm] using this

theorem chainFlat_map_toks (ops : List (Bool × Nat)) :
    ((ops.flatMap fun p => [(([] : List Char), opLx p.1), ([], Lx.num p.2)]).map
        fun p => itemTok (lxItem p.2))
      = (ops.flatMap fun p => [opTok p.1, Tok.lit p.2]).map some := by
  induction ops with
  | nil => rfl
  | cons q rest ih =>
    obtain ⟨b, m⟩ := q
    simp only [List.flatMap_cons, List.cons_append, List.nil_append, List.map_cons]
    rw [ih]
    cases b <;> rfl

/-- The token stream of a `+`/`*` chain input. -/
theorem tokStream_chain (n0 : Nat) (ops : List (Bool × Nat)) :
    tokStream (chainStr n0 ops) = ⟨.lit n0 :: chainT ops [.endT], false⟩ := by
  rw [tokStream, chainStr]
  show buildStrm (scanFrom true (renderG (chainLx n0 ops))) = _
  rw [scanFrom_renderG true _ (chainLx_wf n0 ops)
    (by rw [chainLx]; exact chainFlat_seps n0 ops) (fun h => nomatch h)]
  have h : ((chainLx n0 ops).map fun p => lxItem p.2).map itemTok
      = (Tok.lit n0 :: ops.flatMap fun p => [opTok p.1, Tok.lit p.2]).map some := by
    rw [chainLx, List.map_cons, List.map_cons, List.map_map, List.map_cons]
    congr 1
    exact chainFlat_map_toks ops
  rw [buildStrm_all h, chainT]
  simp

theorem powFlat_map_toks (vs : List Nat) :
    ((vs.flatMap fun v => [(([] : List Char), Lx.dstar), ([], Lx.num v)]).map
        fun p => itemTok (lxItem p.2))
      = (vs.flatMap fun v => [Tok.pow, Tok.lit v]).map some := by
  induction vs with
  | nil => rfl
  | cons v rest ih =>
    simp only [List.flatMap_cons, List.cons_append, List.nil_append, List.map_cons]
    rw [ih]
    rfl

/-- The token stream of a `**` chain input. -/
theorem tokStream_pow (a : Nat) (vs : List Nat) :
    tokStream (powStr a vs) = ⟨.lit a :: powT vs [.endT], false⟩ := by
  rw [tokStream, powStr]
  show buildStrm (scanFrom true (renderG (powLx a vs))) = _
  rw [scanFrom_renderG true _ (powLx_wf a vs) (powLx_seps a vs) (fun h => nomatch h)]
  have h : ((powLx a vs).map fun p => lxItem p.2).map itemTok
      = (Tok.lit a :: vs.flatMap fun v => [Tok.pow, Tok.lit v]).map some := by
    rw [powLx, List.map_cons, List.map_cons, List.map_map, List.map_cons]
    congr 1
    exact powFlat_map_toks vs
  rw [buildStrm_all h, powT]
  simp

end full

namespace basic

theorem buildStrm_appendB {l1 : List Item} {m : List Item} {T : List Tok}
    (h : l1.map itemTok = T.map some) :
    buildStrm (l1 ++ m) = ⟨T ++ (buildStrm m).toks, (buildStrm m).lexErr⟩ := by
  induction l1 generalizing T with
  | nil =>
    cases T with
    | nil => rfl
    | cons t T' => simp at h
  | cons i l1 ih =>
    cases T with
    | nil => simp at h
    | cons t T' =>
      simp only [List.map_cons, List.cons.injEq] at h
      simp only [List.cons_append, buildStrm, h.1, List.append_eq, ih h.2]

theorem buildStrm_allB {l1 : List Item} {T : List Tok}
    (h : l1.map itemTok = T.map some) :
    buildStrm l1 = ⟨T ++ [.endT], false⟩ := by
  have := buildStrm_appendB (m := []) h
  simpa only [List.append_nil, buildStrm] using this

theorem chainFlat_map_toksB (ops : List (Bool × Nat)) :
    ((ops.flatMap fun p => [(([] : List Char), opLx p.1), ([], Lx.num p.2)]).map
        fun p => itemTok (lxItem p.2))
      = (ops.flatMap fun p => [opTok p.1, Tok.lit p.2]).map some := by
  induction ops with
  | nil => rfl
  | cons q rest ih =>
    obtain ⟨b, m⟩ := q
    simp only [List.flatMap_cons, List.cons_append, List.nil_append, List.map_cons]
    rw [ih]
    cases b <;> rfl

/-- The token stream `basic.tokenize` produces for a `+`/`*` chain input. -/
theorem tokStream_chainB (n0 : Nat) (ops : List (Bool × Nat)) :
    tokStream (chainStr n0 ops) = ⟨.lit n0 :: chainT ops [.endT], false⟩ := by
  rw [tokStream, chainStr]
  show buildStrm (scanFrom false (renderG (chainLx n0 ops))) = _
  rw [scanFrom_renderG false _ (chainLx_wf n0 ops)
    (by rw [chainLx]; exact chainFlat_seps n0 ops) (fun _ => chainLx_noDstar n0 ops)]
  have h : ((chainLx n0 ops).map fun p => lxItem p.2).map itemTok
      = (Tok.lit n0 :: ops.flatMap fun p => [opTok p.1, Tok.lit p.2]).map some := by
    rw [chainLx, List.map_cons, List.map_cons, List.map_map, List.map_cons]
    congr 1
    exact chainFlat_map_toksB ops
  rw [buildStrm_allB h, chainT]
  simp

end basic

/-! ## Evaluator lemmas -/

@[simp] theorem ok_bind {α β : Type} (v : α) (f : α → Res β) :
    (Res.ok v >>= f) = f v := rfl

@[simp] theorem err_bind {α β : Type} (e : Err) (f : α → Res β) :
    ((Res.err e : Res α) >>= f) = Res.err e := rfl

theorem addV_nat (p n : Nat) : addV (natV p) (natV n) = natV (p + n) := by
  simp [addV, natV]

theorem mulV_nat (p n : Nat) : mulV (natV p) (natV n) = natV (p * n) := by
  simp [mulV, natV]

theorem powV_nat (p n : Nat) : powV (natV p) (natV n) = .ok (natV (p ^ n)) := by
  rw [powV]
  have h1 : isIntV (natV n) = true := by simp [isIntV, natV]
  have h2 : toIntV (natV n) = (n : Int) := by simp [toIntV, natV]
  rw [if_pos h1]
  simp only [h2]
  rw [if_pos (by omega)]
  simp [natV, Int.toNat_natCast]

theorem facV_nat (n : Nat) : facV (natV n) = .ok (natV n.factorial) := by
  rw [facV, if_pos (by simp [isIntV, natV])]
  simp [toIntV, natV, Int.toNat_natCast]

theorem prodRunN_len (acc : Nat) (ops : List (Bool × Nat)) :
    (prodRunN acc ops).2.length ≤ ops.length := by
  induction ops generalizing acc with
  | nil => simp [prodRunN]
  | cons q rest ih =>
    obtain ⟨b, m⟩ := q
    cases b with
    | true =>
      rw [show prodRunN acc ((true, m) :: rest) = prodRunN (acc * m) rest from rfl]
      exact (ih (acc * m)).trans (by simp)
    | false => simp [prodRunN]

theorem sumProd_shift (s p : Nat) (ops : List (Bool × Nat)) :
    sumProd s p ops = sumProd 0 (s + (prodRunN p ops).1) (prodRunN p ops).2 := by
  induction ops generalizing s p with
  | nil => simp [sumProd, prodRunN]
  | cons q rest ih =>
    obtain ⟨b, m⟩ := q
    cases b with
    | true =>
      rw [show prodRunN p ((true, m) :: rest) = prodRunN (p * m) rest from rfl,
        show sumProd s p ((true, m) :: rest) = sumProd s (p * m) rest from rfl]
      exact ih s (p * m)
    | false =>
      rw [show prodRunN p ((false, m) :: rest) = (p, (false, m) :: rest) from rfl]
      simp [sumProd]

namespace full

@[simp] theorem nextT_cons (t : Tok) (ts : List Tok) (e : Bool) :
    nextT ⟨t :: ts, e⟩ = .ok (t, ⟨ts, e⟩) := rfl

@[simp] theorem advance_cons (c t : Tok) (ts : List Tok) (e : Bool) :
    advance ⟨c, ⟨t :: ts, e⟩⟩ = .ok (c, ⟨t, ⟨ts, e⟩⟩) := rfl

theorem stOf_cons (t : Tok) (ts : List Tok) (e : Bool) :
    stOf (t :: ts) e = ⟨t, ⟨ts, e⟩⟩ := rfl

theorem chainT_nil (tl : List Tok) : chainT [] tl = tl := by
  simp [chainT]

theorem chainT_cons (b : Bool) (n : Nat) (rest : List (Bool × Nat)) (tl : List Tok) :
    chainT ((b, n) :: rest) tl = opTok b :: .lit n :: chainT rest tl := by
  simp [chainT]

theorem powT_cons (v : Nat) (vs : List Nat) (tl : List Tok) :
    powT (v :: vs) tl = .pow :: .lit v :: powT vs tl := by
  simp [powT]

theorem powT_nil (tl : List Tok) : powT [] tl = tl := by
  simp [powT]

/-- The loop of `expression` stops as soon as the current token's `lbp` is
at most `rbp`. -/
theorem lloop_stop {f rbp : Nat} {v : PyNum} {s : St} {l : Nat}
    (hf : 1 ≤ f) (h : lbpA s.cur = some l) (hl : l ≤ rbp) :
    lloop f rbp v s = .ok (v, s) := by
  cases f with
  | zero => omega
  | succ f =>
    simp only [lloop, h]
    rw [if_neg (by omega)]

/-- One iteration of the loop of `expression` when the current token's `lbp`
exceeds `rbp`. -/
theorem lloop_step {f rbp : Nat} {v : PyNum} {s : St} {l : Nat}
    (h : lbpA s.cur = some l) (hl : rbp < l) :
    lloop (f + 1) rbp v s =
      (advance s >>= fun r =>
        match r with
        | (t, st1) =>
          ledF f t v st1 >>= fun r2 =>
            match r2 with
            | (left1, st2) => lloop f rbp left1 st2) := by
  simp only [lloop, h]
  rw [if_pos hl]

/-- Unfolding of `expression`: consume the current token, `nud` it, loop. -/
theorem expr_step {f rbp : Nat} {s : St} :
    expr (f + 1) rbp s =
      (advance s >>= fun r =>
        match r with
        | (t, st1) =>
          nudF f t st1 >>= fun r2 =>
            match r2 with
            | (left, st2) => lloop f rbp left st2) := by
  simp only [expr]

/-- The head of a chain state has an `lbp` of at most 20. -/
theorem chainT_head_lbp (ops : List (Bool × Nat)) (t0 : Tok) (ts : List Tok)
    (h0 : lbpA t0 = some 0) :
    ∃ l, lbpA ((chainT ops (t0 :: ts)).headD .endT) = some l ∧ l ≤ 20 := by
  cases ops with
  | nil => exact ⟨0, by simp [chainT_nil, h0], by omega⟩
  | cons q rest =>
    obtain ⟨b, m⟩ := q
    rw [chainT_cons]
    cases b with
    | false => exact ⟨10, by simp [opTok, lbpA], by omega⟩
    | true => exact ⟨20, by simp [opTok, lbpA], by omega⟩

/-- Product runs: at `rbp = 10` the loop consumes exactly the maximal run of
leading `*` entries (each `*.led` evaluating `expression(20)`, which takes a
single literal because a following `*` has `lbp 20 ≤ 20`). -/
theorem lloop_prod :
    ∀ (ops : List (Bool × Nat)) (t0 : Tok) (ts : List Tok) (e : Bool) (p f : Nat),
      lbpA t0 = some 0 → 2 * ops.length + 2 ≤ f →
      lloop f 10 (natV p) (stOf (chainT ops (t0 :: ts)) e) =
        .ok (natV (prodRunN p ops).1, stOf (chainT (prodRunN p ops).2 (t0 :: ts)) e) := by
  intro ops
  induction ops with
  | nil =>
    intro t0 ts e p f h0 hf
    simp only [prodRunN]
    refine lloop_stop (l := 0) (by omega) ?_ (by omega)
    simpa [chainT_nil, stOf] using h0
  | cons q rest ih =>
    obtain ⟨b, m⟩ := q
    intro t0 ts e p f h0 hf
    simp only [List.length_cons] at hf
    cases b with
    | false =>
      rw [show prodRunN p ((false, m) :: rest) = (p, (false, m) :: rest) from rfl]
      refine lloop_stop (l := 10) (by omega) ?_ (by omega)
      rw [chainT_cons]
      simp [stOf, opTok, lbpA]
    | true =>
      obtain ⟨g1, rfl⟩ : ∃ g, f = g + 1 := ⟨f - 1, by omega⟩
      rw [chainT_cons, stOf_cons]
      rw [show opTok true = Tok.mul from rfl]
      rw [lloop_step
        (s := ⟨Tok.mul, ⟨Tok.lit m :: chainT rest (t0 :: ts), e⟩⟩) (l := 20)
        rfl (by omega)]
      simp only [advance_cons, ok_bind]
      obtain ⟨g2, rfl⟩ : ∃ g, g1 = g + 1 := ⟨g1 - 1, by omega⟩
      simp only [ledF]
      obtain ⟨g3, rfl⟩ : ∃ g, g2 = g + 1 := ⟨g2 - 1, by omega⟩
      rw [expr_step]
      obtain ⟨c, cs, hc⟩ : ∃ c cs, chainT rest (t0 :: ts) = c :: cs := by
        cases rest with
        | nil => exact ⟨t0, ts, chainT_nil _⟩
        | cons q2 r2 =>
          obtain ⟨b2, m2⟩ := q2
          exact ⟨opTok b2, _, chainT_cons b2 m2 r2 (t0 :: ts)⟩
      rw [hc]
      simp only [advance_cons, ok_bind, nudF]
      obtain ⟨l, hl, hl2⟩ := chainT_head_lbp rest t0 ts h0
      rw [hc] at hl
      simp only [List.headD_cons] at hl
      rw [lloop_stop (f := g3) (by omega) (by simpa using hl) hl2]
      simp only [ok_bind, mulV_nat]
      rw [show (⟨c, ⟨cs, e⟩⟩ : St) = stOf (chainT rest (t0 :: ts)) e from by
        rw [hc, stOf_cons]]
      rw [ih t0 ts e (p * m) (g3 + 1 + 1) h0 (by omega)]
      rfl

/-- At `rbp = 0` the loop of `expression` consumes a whole `+`/`*` chain and
computes its standard arithmetic value (`sumProd`). -/
theorem lloop_chain :
    ∀ (k : Nat) (ops : List (Bool × Nat)) (t0 : Tok) (ts : List Tok) (e : Bool)
      (p f : Nat), ops.length ≤ k → lbpA t0 = some 0 → 2 * ops.length + 4 ≤ f →
      lloop f 0 (natV p) (stOf (chainT ops (t0 :: ts)) e) =
        .ok (natV (sumProd 0 p ops), ⟨t0, ⟨ts, e⟩⟩) := by
  intro k
  induction k with
  | zero =>
    intro ops t0 ts e p f hk h0 hf
    have hops : ops = [] := List.length_eq_zero.mp (by omega)
    subst hops
    rw [show sumProd 0 p [] = 0 + p from rfl, Nat.zero_add, chainT_nil]
    refine lloop_stop (l := 0) (by omega) ?_ (by omega)
    simpa [stOf] using h0
  | succ k ih =>
    intro ops t0 ts e p f hk h0 hf
    cases ops with
    | nil =>
      rw [show sumProd 0 p [] = 0 + p from rfl, Nat.zero_add, chainT_nil]
      refine lloop_stop (l := 0) (by omega) ?_ (by omega)
      simpa [stOf] using h0
    | cons q rest =>
      obtain ⟨b, m⟩ := q
      simp only [List.length_cons] at hf hk
      obtain ⟨g1, rfl⟩ : ∃ g, f = g + 1 := ⟨f - 1, by omega⟩
      obtain ⟨c, cs, hc⟩ : ∃ c cs, chainT rest (t0 :: ts) = c :: cs := by
        cases rest with
        | nil => exact ⟨t0, ts, chainT_nil _⟩
        | cons q2 r2 =>
          obtain ⟨b2, m2⟩ := q2
          exact ⟨opTok b2, _, chainT_cons b2 m2 r2 (t0 :: ts)⟩
      cases b with
      | true =>
        rw [chainT_cons, stOf_cons]
        rw [show opTok true = Tok.mul from rfl]
        rw [lloop_step
          (s := ⟨Tok.mul, ⟨Tok.lit m :: chainT rest (t0 :: ts), e⟩⟩) (l := 20)
          rfl (by omega)]
        simp only [advance_cons, ok_bind]
        obtain ⟨g2, rfl⟩ : ∃ g, g1 = g + 1 := ⟨g1 - 1, by omega⟩
        simp only [ledF]
        obtain ⟨g3, rfl⟩ : ∃ g, g2 = g + 1 := ⟨g2 - 1, by omega⟩
        rw [expr_step]
        rw [hc]
        simp only [advance_cons, ok_bind, nudF]
        obtain ⟨l, hl, hl2⟩ := chainT_head_lbp rest t0 ts h0
        rw [hc] at hl
        simp only [List.headD_cons] at hl
        rw [lloop_stop (f := g3) (by omega) (by simpa using hl) hl2]
        simp only [ok_bind, mulV_nat]
        rw [show (⟨c, ⟨cs, e⟩⟩ : St) = stOf (chainT rest (t0 :: ts)) e from by
          rw [hc, stOf_cons]]
        rw [ih rest t0 ts e (p * m) (g3 + 1 + 1) (by omega) h0 (by omega)]
        rfl
      | false =>
        rw [chainT_cons, stOf_cons]
        rw [show opTok false = Tok.add from rfl]
        rw [lloop_step
          (s := ⟨Tok.add, ⟨Tok.lit m :: chainT rest (t0 :: ts), e⟩⟩) (l := 10)
          rfl (by omega)]
        simp only [advance_cons, ok_bind]
        obtain ⟨g2, rfl⟩ : ∃ g, g1 = g + 1 := ⟨g1 - 1, by omega⟩
        simp only [ledF]
        obtain ⟨g3, rfl⟩ : ∃ g, g2 = g + 1 := ⟨g2 - 1, by omega⟩
        rw [expr_step]
        rw [hc]
        simp only [advance_cons, ok_bind, nudF]
        rw [show (⟨c, ⟨cs, e⟩⟩ : St) = stOf (chainT rest (t0 :: ts)) e from by
          rw [hc, stOf_cons]]
        rw [lloop_prod rest t0 ts e m g3 h0 (by omega)]
        simp only [ok_bind, addV_nat]
        rw [ih (prodRunN m rest).2 t0 ts e (p + (prodRunN m rest).1) (g3 + 1 + 1)
          (by have := prodRunN_len m rest; omega) h0
          (by have := prodRunN_len m rest; omega)]
        rw [show sumProd 0 p ((false, m) :: rest) = sumProd p m rest from by
          simp [sumProd]]
        rw [sumProd_shift p m rest]

theorem chainT_length (ops : List (Bool × Nat)) (tl : List Tok) :
    (chainT ops tl).length = 2 * ops.length + tl.length := by
  induction ops with
  | nil => simp [chainT_nil]
  | cons q rest ih =>
    obtain ⟨b, m⟩ := q
    rw [chainT_cons]
    simp only [List.length_cons, List.length_cons, ih]
    omega

/-- `expression(0)` on a literal followed by a `+`/`*` chain evaluates the
chain and leaves the cursor on the terminating token. -/
theorem expr_chain (n0 : Nat) (ops : List (Bool × Nat)) (t0 : Tok) (ts : List Tok)
    (e : Bool) (f : Nat) (h0 : lbpA t0 = some 0) (hf : 2 * ops.length + 5 ≤ f) :
    expr f 0 ⟨.lit n0, ⟨chainT ops (t0 :: ts), e⟩⟩ =
      .ok (natV (sumProd 0 n0 ops), ⟨t0, ⟨ts, e⟩⟩) := by
  obtain ⟨g, rfl⟩ : ∃ g, f = g + 1 := ⟨f - 1, by omega⟩
  rw [expr_step]
  obtain ⟨c, cs, hc⟩ : ∃ c cs, chainT ops (t0 :: ts) = c :: cs := by
    cases ops with
    | nil => exact ⟨t0, ts, chainT_nil _⟩
    | cons q2 r2 =>
      obtain ⟨b2, m2⟩ := q2
      exact ⟨opTok b2, _, chainT_cons b2 m2 r2 (t0 :: ts)⟩
  rw [hc]
  simp only [advance_cons, ok_bind, nudF]
  rw [show (⟨c, ⟨cs, e⟩⟩ : St) = stOf (chainT ops (t0 :: ts)) e from by
    rw [hc, stOf_cons]]
  rw [lloop_chain ops.length ops t0 ts e n0 g le_rfl h0 (by omega)]

/-- `full.parse` on a `+`/`*` chain input returns the standard arithmetic
value. -/
theorem parse_chain (n0 : Nat) (ops : List (Bool × Nat)) :
    parse (chainStr n0 ops) = .ok (natV (refVal n0 ops)) := by
  simp only [parse, tokStream_chain n0 ops, nextT_cons, ok_bind]
  have he := expr_chain n0 ops .endT [] false
    (2 * (Strm.mk (Tok.lit n0 :: chainT ops [Tok.endT]) false).toks.length + 8) rfl
    (by simp [chainT_length]; omega)
  rw [he]
  simp only [ok_bind]
  rfl

theorem powT_length (vs : List Nat) (tl : List Tok) :
    (powT vs tl).length = 2 * vs.length + tl.length := by
  induction vs with
  | nil => simp [powT_nil]
  | cons v rest ih =>
    rw [powT_cons]
    simp only [List.length_cons, ih]
    omega

/-- `expression(rbp)` for `rbp < 30` on a literal followed by a `**` chain
evaluates the whole chain right-associatively: each `**.led` recurses with
`expression(29)`, and `lbp(**) = 30 > 29` lets the next `**` re-bind inside
that recursive call. -/
theorem expr_pow :
    ∀ (vs : List Nat) (v : Nat) (rbp : Nat) (t0 : Tok) (ts : List Tok) (e : Bool)
      (f : Nat), lbpA t0 = some 0 → rbp < 30 → 4 * vs.length + 2 ≤ f →
      expr f rbp ⟨.lit v, ⟨powT vs (t0 :: ts), e⟩⟩ =
        .ok (natV (powFoldr v vs), ⟨t0, ⟨ts, e⟩⟩) := by
  intro vs
  induction vs with
  | nil =>
    intro v rbp t0 ts e f h0 hr hf
    obtain ⟨g, rfl⟩ : ∃ g, f = g + 1 := ⟨f - 1, by omega⟩
    rw [powT_nil, expr_step]
    simp only [advance_cons, ok_bind, nudF]
    rw [show powFoldr v [] = v from rfl]
    exact lloop_stop (l := 0) (by omega) (by simpa using h0) (by omega)
  | cons w ws ih =>
    intro v rbp t0 ts e f h0 hr hf
    simp only [List.length_cons] at hf
    obtain ⟨g1, rfl⟩ : ∃ g, f = g + 1 := ⟨f - 1, by omega⟩
    rw [powT_cons, expr_step]
    simp only [advance_cons, ok_bind, nudF]
    obtain ⟨g2, rfl⟩ : ∃ g, g1 = g + 1 := ⟨g1 - 1, by omega⟩
    rw [lloop_step
      (s := ⟨Tok.pow, ⟨Tok.lit w :: powT ws (t0 :: ts), e⟩⟩) (l := 30)
      rfl (by omega)]
    simp only [advance_cons, ok_bind]
    obtain ⟨g3, rfl⟩ : ∃ g, g2 = g + 1 := ⟨g2 - 1, by omega⟩
    simp only [ledF]
    rw [show (30 - 1 : Nat) = 29 from rfl]
    rw [ih w 29 t0 ts e g3 h0 (by omega) (by omega)]
    simp only [ok_bind, powV_nat]
    rw [lloop_stop (f := g3 + 1) (by omega) (by simpa using h0) (by omega)]
    rfl

/-- `full.parse` on a `**` chain input computes the right-associated power. -/
theorem parse_pow (a : Nat) (vs : List Nat) :
    parse (powStr a vs) = .ok (natV (powFoldr a vs)) := by
  simp only [parse, tokStream_pow a vs, nextT_cons, ok_bind]
  have he := expr_pow vs a 0 .endT [] false
    (2 * (Strm.mk (Tok.lit a :: powT vs [Tok.endT]) false).toks.length + 8) rfl
    (by omega) (by simp [powT_length]; omega)
  rw [he]
  simp only [ok_bind]

end full

namespace basic

@[simp] theorem nextT_consB (t : Tok) (ts : List Tok) (e : Bool) :
    nextT ⟨t :: ts, e⟩ = .ok (t, ⟨ts, e⟩) := rfl

@[simp] theorem advance_consB (c t : Tok) (ts : List Tok) (e : Bool) :
    advance ⟨c, ⟨t :: ts, e⟩⟩ = .ok (c, ⟨t, ⟨ts, e⟩⟩) := rfl

theorem stOf_consB (t : Tok) (ts : List Tok) (e : Bool) :
    stOf (t :: ts) e = ⟨t, ⟨ts, e⟩⟩ := rfl

theorem chainT_nilB (tl : List Tok) : chainT [] tl = tl := by
  simp [chainT]

theorem chainT_consB (b : Bool) (n : Nat) (rest : List (Bool × Nat)) (tl : List Tok) :
    chainT ((b, n) :: rest) tl = opTok b :: .lit n :: chainT rest tl := by
  simp [chainT]

theorem chainT_lengthB (ops : List (Bool × Nat)) (tl : List Tok) :
    (chainT ops tl).length = 2 * ops.length + tl.length := by
  induction ops with
  | nil => simp [chainT_nilB]
  | cons q rest ih =>
    obtain ⟨b, m⟩ := q
    rw [chainT_consB]
    simp only [List.length_cons, ih]
    omega

/-- The loop of `basic.expression` stops when the current token's `lbp` is
at most `rbp`. -/
theorem lloop_stopB {f rbp : Nat} {v : PyNum} {s : St} {l : Nat}
    (hf : 1 ≤ f) (h : lbpA s.cur = some l) (hl : l ≤ rbp) :
    lloop f rbp v s = .ok (v, s) := by
  cases f with
  | zero => omega
  | succ f =>
    simp only [lloop, h]
    rw [if_neg (by omega)]

/-- One iteration of the loop of `basic.expression` when the current token's
`lbp` exceeds `rbp`. -/
theorem lloop_stepB {f rbp : Nat} {v : PyNum} {s : St} {l : Nat}
    (h : lbpA s.cur = some l) (hl : rbp < l) :
    lloop (f + 1) rbp v s =
      (advance s >>= fun r =>
        match r with
        | (t, st1) =>
          ledF f t v st1 >>= fun r2 =>
            match r2 with
            | (left1, st2) => lloop f rbp left1 st2) := by
  simp only [lloop, h]
  rw [if_pos hl]

/-- Unfolding of `basic.expression`. -/
theorem expr_stepB {f rbp : Nat} {s : St} :
    expr (f + 1) rbp s =
      (advance s >>= fun r =>
        match r with
        | (t, st1) =>
          nudF f t st1 >>= fun r2 =>
            match r2 with
            | (left, st2) => lloop f rbp left st2) := by
  simp only [expr]

theorem chainT_head_lbpB (ops : List (Bool × Nat)) (t0 : Tok) (ts : List Tok)
    (h0 : lbpA t0 = some 0) :
    ∃ l, lbpA ((chainT ops (t0 :: ts)).headD .endT) = some l ∧ l ≤ 20 := by
  cases ops with
  | nil => exact ⟨0, by simp [chainT_nilB, h0], by omega⟩
  | cons q rest =>
    obtain ⟨b, m⟩ := q
    rw [chainT_consB]
    cases b with
    | false => exact ⟨10, by simp [opTok, lbpA], by omega⟩
    | true => exact ⟨20, by simp [opTok, lbpA], by omega⟩

/-- Product runs in `basic.py` (same argument as for `full.py`). -/
theorem lloop_prodB :
    ∀ (ops : List (Bool × Nat)) (t0 : Tok) (ts : List Tok) (e : Bool) (p f : Nat),
      lbpA t0 = some 0 → 2 * ops.length + 2 ≤ f →
      lloop f 10 (natV p) (stOf (chainT ops (t0 :: ts)) e) =
        .ok (natV (prodRunN p ops).1, stOf (chainT (prodRunN p ops).2 (t0 :: ts)) e) := by
  intro ops
  induction ops with
  | nil =>
    intro t0 ts e p f h0 hf
    simp only [prodRunN]
    refine lloop_stopB (l := 0) (by omega) ?_ (by omega)
    simpa [chainT_nilB, stOf] using h0
  | cons q rest ih =>
    obtain ⟨b, m⟩ := q
    intro t0 ts e p f h0 hf
    simp only [List.length_cons] at hf
    cases b with
    | false =>
      rw [show prodRunN p ((false, m) :: rest) = (p, (false, m) :: rest) from rfl]
      refine lloop_stopB (l := 10) (by omega) ?_ (by omega)
      rw [chainT_consB]
      simp [stOf, opTok, lbpA]
    | true =>
      obtain ⟨g1, rfl⟩ : ∃ g, f = g + 1 := ⟨f - 1, by omega⟩
      rw [chainT_consB, stOf_consB]
      rw [show opTok true = Tok.mul from rfl]
      rw [lloop_stepB
        (s := ⟨Tok.mul, ⟨Tok.lit m :: chainT rest (t0 :: ts), e⟩⟩) (l := 20)
        rfl (by omega)]
      simp only [advance_consB, ok_bind]
      obtain ⟨g2, rfl⟩ : ∃ g, g1 = g + 1 := ⟨g1 - 1, by omega⟩
      simp only [ledF]
      obtain ⟨g3, rfl⟩ : ∃ g, g2 = g + 1 := ⟨g2 - 1, by omega⟩
      rw [expr_stepB]
      obtain ⟨c, cs, hc⟩ : ∃ c cs, chainT rest (t0 :: ts) = c :: cs := by
        cases rest with
        | nil => exact ⟨t0, ts, chainT_nilB _⟩
        | cons q2 r2 =>
          obtain ⟨b2, m2⟩ := q2
          exact ⟨opTok b2, _, chainT_consB b2 m2 r2 (t0 :: ts)⟩
      rw [hc]
      simp only [advance_consB, ok_bind, nudF]
      obtain ⟨l, hl, hl2⟩ := chainT_head_lbpB rest t0 ts h0
      rw [hc] at hl
      simp only [List.headD_cons] at hl
      rw [lloop_stopB (f := g3) (by omega) (by simpa using hl) hl2]
      simp only [ok_bind, mulV_nat]
      rw [show (⟨c, ⟨cs, e⟩⟩ : St) = stOf (chainT rest (t0 :: ts)) e from by
        rw [hc, stOf_consB]]
      rw [ih t0 ts e (p * m) (g3 + 1 + 1) h0 (by omega)]
      rfl

/-- The loop of `basic.expression` at `rbp = 0` evaluates a whole chain. -/
theorem lloop_chainB :
    ∀ (k : Nat) (ops : List (Bool × Nat)) (t0 : Tok) (ts : List Tok) (e : Bool)
      (p f : Nat), ops.length ≤ k → lbpA t0 = some 0 → 2 * ops.length + 4 ≤ f →
      lloop f 0 (natV p) (stOf (chainT ops (t0 :: ts)) e) =
        .ok (natV (sumProd 0 p ops), ⟨t0, ⟨ts, e⟩⟩) := by
  intro k
  induction k with
  | zero =>
    intro ops t0 ts e p f hk h0 hf
    have hops : ops = [] := List.length_eq_zero.mp (by omega)
    subst hops
    rw [show sumProd 0 p [] = 0 + p from rfl, Nat.zero_add, chainT_nilB]
    refine lloop_stopB (l := 0) (by omega) ?_ (by omega)
    simpa [stOf] using h0
  | succ k ih =>
    intro ops t0 ts e p f hk h0 hf
    cases ops with
    | nil =>
      rw [show sumProd 0 p [] = 0 + p from rfl, Nat.zero_add, chainT_nilB]
      refine lloop_stopB (l := 0) (by omega) ?_ (by omega)
      simpa [stOf] using h0
    | cons q rest =>
      obtain ⟨b, m⟩ := q
      simp only [List.length_cons] at hf hk
      obtain ⟨g1, rfl⟩ : ∃ g, f = g + 1 := ⟨f - 1, by omega⟩
      obtain ⟨c, cs, hc⟩ : ∃ c cs, chainT rest (t0 :: ts) = c :: cs := by
        cases rest with
        | nil => exact ⟨t0, ts, chainT_nilB _⟩
        | cons q2 r2 =>
          obtain ⟨b2, m2⟩ := q2
          exact ⟨opTok b2, _, chainT_consB b2 m2 r2 (t0 :: ts)⟩
      cases b with
      | true =>
        rw [chainT_consB, stOf_consB]
        rw [show opTok true = Tok.mul from rfl]
        rw [lloop_stepB
          (s := ⟨Tok.mul, ⟨Tok.lit m :: chainT rest (t0 :: ts), e⟩⟩) (l := 20)
          rfl (by omega)]
        simp only [advance_consB, ok_bind]
        obtain ⟨g2, rfl⟩ : ∃ g, g1 = g + 1 := ⟨g1 - 1, by omega⟩
        simp only [ledF]
        obtain ⟨g3, rfl⟩ : ∃ g, g2 = g + 1 := ⟨g2 - 1, by omega⟩
        rw [expr_stepB]
        rw [hc]
        simp only [advance_consB, ok_bind, nudF]
        obtain ⟨l, hl, hl2⟩ := chainT_head_lbpB rest t0 ts h0
        rw [hc] at hl
        simp only [List.headD_cons] at hl
        rw [lloop_stopB (f := g3) (by omega) (by simpa using hl) hl2]
        simp only [ok_bind, mulV_nat]
        rw [show (⟨c, ⟨cs, e⟩⟩ : St) = stOf (chainT rest (t0 :: ts)) e from by
          rw [hc, stOf_consB]]
        rw [ih rest t0 ts e (p * m) (g3 + 1 + 1) (by omega) h0 (by omega)]
        rfl
      | false =>
        rw [chainT_consB, stOf_consB]
        rw [show opTok false = Tok.add from rfl]
        rw [lloop_stepB
          (s := ⟨Tok.add, ⟨Tok.lit m :: chainT rest (t0 :: ts), e⟩⟩) (l := 10)
          rfl (by omega)]
        simp only [advance_consB, ok_bind]
        obtain ⟨g2, rfl⟩ : ∃ g, g1 = g + 1 := ⟨g1 - 1, by omega⟩
        simp only [ledF]
        obtain ⟨g3, rfl⟩ : ∃ g, g2 = g + 1 := ⟨g2 - 1, by omega⟩
        rw [expr_stepB]
        rw [hc]
        simp only [advance_consB, ok_bind, nudF]
        rw [show (⟨c, ⟨cs, e⟩⟩ : St) = stOf (chainT rest (t0 :: ts)) e from by
          rw [hc, stOf_consB]]
        rw [lloop_prodB rest t0 ts e m g3 h0 (by omega)]
        simp only [ok_bind, addV_nat]
        rw [ih (prodRunN m rest).2 t0 ts e (p + (prodRunN m rest).1) (g3 + 1 + 1)
          (by have := prodRunN_len m rest; omega) h0
          (by have := prodRunN_len m rest; omega)]
        rw [show sumProd 0 p ((false, m) :: rest) = sumProd p m rest from by
          simp [sumProd]]
        rw [sumProd_shift p m rest]

theorem expr_chainB (n0 : Nat) (ops : List (Bool × Nat)) (t0 : Tok) (ts : List Tok)
    (e : Bool) (f : Nat) (h0 : lbpA t0 = some 0) (hf : 2 * ops.length + 5 ≤ f) :
    expr f 0 ⟨.lit n0, ⟨chainT ops (t0 :: ts), e⟩⟩ =
      .ok (natV (sumProd 0 n0 ops), ⟨t0, ⟨ts, e⟩⟩) := by
  obtain ⟨g, rfl⟩ : ∃ g, f = g + 1 := ⟨f - 1, by omega⟩
  rw [expr_stepB]
  obtain ⟨c, cs, hc⟩ : ∃ c cs, chainT ops (t0 :: ts) = c :: cs := by
    cases ops with
    | nil => exact ⟨t0, ts, chainT_nilB _⟩
    | cons q2 r2 =>
      obtain ⟨b2, m2⟩ := q2
      exact ⟨opTok b2, _, chainT_consB b2 m2 r2 (t0 :: ts)⟩
  rw [hc]
  simp only [advance_consB, ok_bind, nudF]
  rw [show (⟨c, ⟨cs, e⟩⟩ : St) = stOf (chainT ops (t0 :: ts)) e from by
    rw [hc, stOf_consB]]
  rw [lloop_chainB ops.length ops t0 ts e n0 g le_rfl h0 (by omega)]

/-- `basic.parse` on a `+`/`*` chain input returns the standard arithmetic
value. -/
theorem parse_chainB (n0 : Nat) (ops : List (Bool × Nat)) :
    parse (chainStr n0 ops) = .ok (natV (refVal n0 ops)) := by
  simp only [parse, tokStream_chainB n0 ops, nextT_consB, ok_bind]
  have he := expr_chainB n0 ops .endT [] false
    (2 * (Strm.mk (Tok.lit n0 :: chainT ops [Tok.endT]) false).toks.length + 8) rfl
    (by simp [chainT_lengthB]; omega)
  rw [he]
  simp only [ok_bind]
  rfl

end basic

/-! ## Fixed-shape runs used by the remaining claims -/

namespace full

@[simp] theorem nextT_nil_err : nextT ⟨[], true⟩ = .err .unknownOperator := rfl

@[simp] theorem nextT_nil_end : nextT ⟨[], false⟩ = .err .stopIteration := rfl

/-- `expression` on a single literal whose next token is `)` stops at once
with the literal's value: `)` has `lbp 0`, so the loop never examines
anything after it. -/
theorem expr_lit_rparen (n : Nat) (T : List Tok) (e : Bool) (f : Nat) (hf : 2 ≤ f) :
    expr f 0 ⟨.lit n, ⟨.rparen :: T, e⟩⟩ = .ok (natV n, ⟨.rparen, ⟨T, e⟩⟩) := by
  obtain ⟨g, rfl⟩ : ∃ g, f = g + 1 := ⟨f - 1, by omega⟩
  rw [expr_step]
  simp only [advance_cons, ok_bind, nudF]
  exact lloop_stop (l := 0) (by omega) rfl (by omega)

/-- `expression` on two adjacent literals: the loop-condition read of
`token.lbp` raises `AttributeError` because `literal_token` has no `lbp`. -/
theorem expr_two_lits (n m : Nat) (T : List Tok) (e : Bool) (f : Nat) (hf : 2 ≤ f) :
    expr f 0 ⟨.lit n, ⟨.lit m :: T, e⟩⟩ = .err .noLbp := by
  obtain ⟨g, rfl⟩ : ∃ g, f = g + 1 := ⟨f - 1, by omega⟩
  rw [expr_step]
  simp only [advance_cons, ok_bind, nudF]
  obtain ⟨g2, rfl⟩ : ∃ g2, g = g2 + 1 := ⟨g - 1, by omega⟩
  simp only [lloop, lbpA]

/-- `expression` on the end-of-input token: the advance past `End` hits the
exhausted generator (`StopIteration`) before `End.nud` is consulted. -/
theorem expr_end (rbp f : Nat) (hf : 1 ≤ f) :
    expr f rbp ⟨.endT, ⟨[], false⟩⟩ = .err .stopIteration := by
  obtain ⟨g, rfl⟩ : ∃ g, f = g + 1 := ⟨f - 1, by omega⟩
  rw [expr_step]
  rfl

/-- The run of `-n!`: unary minus recurses at `rbp 100`, postfix `!`
(`lbp 150 > 100`) binds inside that recursive call, so the factorial is
taken first and negated afterwards. -/
theorem expr_neg_fac (n : Nat) (e : Bool) (f : Nat) (hf : 8 ≤ f) :
    expr f 0 ⟨.sub, ⟨[.lit n, .fac, .endT], e⟩⟩ =
      .ok (negV (natV n.factorial), ⟨.endT, ⟨[], e⟩⟩) := by
  obtain ⟨g1, rfl⟩ : ∃ g, f = g + 1 := ⟨f - 1, by omega⟩
  rw [expr_step]
  simp only [advance_cons, ok_bind]
  obtain ⟨g2, rfl⟩ : ∃ g, g1 = g + 1 := ⟨g1 - 1, by omega⟩
  simp only [nudF]
  obtain ⟨g3, rfl⟩ : ∃ g, g2 = g + 1 := ⟨g2 - 1, by omega⟩
  rw [expr_step]
  simp only [advance_cons, ok_bind, nudF]
  obtain ⟨g4, rfl⟩ : ∃ g, g3 = g + 1 := ⟨g3 - 1, by omega⟩
  rw [lloop_step (s := ⟨Tok.fac, ⟨[Tok.endT], e⟩⟩) (l := 150) rfl (by omega)]
  simp only [advance_cons, ok_bind, ledF, facV_nat]
  rw [lloop_stop (f := g4) (s := ⟨Tok.endT, ⟨[], e⟩⟩) (l := 0) (by omega) rfl (by omega)]
  simp only [ok_bind]
  rw [lloop_stop (f := g4 + 1 + 1 + 1) (s := ⟨Tok.endT, ⟨[], e⟩⟩) (l := 0)
    (by omega) rfl (by omega)]

end full

theorem takeWhile_all_self {p : Char → Bool} {l : List Char}
    (h : ∀ c ∈ l, p c = true) : l.takeWhile p = l := by
  induction l with
  | nil => rfl
  | cons c cs ih =>
    simp only [List.takeWhile_cons, h c (List.mem_cons_self c cs), if_true]
    rw [ih fun x hx => h x (List.mem_cons_of_mem c hx)]

theorem dropWhile_all_nil {p : Char → Bool} {l : List Char}
    (h : ∀ c ∈ l, p c = true) : l.dropWhile p = [] := by
  induction l with
  | nil => rfl
  | cons c cs ih =>
    simp only [List.dropWhile_cons, h c (List.mem_cons_self c cs), if_true]
    exact ih fun x hx => h x (List.mem_cons_of_mem c hx)

/-- A whitespace character is not one of the recognised operator characters,
so `tokenize` raises the unknown-operator `SyntaxError` on it. -/
theorem itemTok_ws_none {c : Char} (h : isWsC c = true) :
    full.itemTok (.opCh c) = none := by
  have h1 : ¬(c = '+') := fun he => by subst he; exact absurd h (by decide)
  have h2 : ¬(c = '-') := fun he => by subst he; exact absurd h (by decide)
  have h3 : ¬(c = '*') := fun he => by subst he; exact absurd h (by decide)
  have h4 : ¬(c = '/') := fun he => by subst he; exact absurd h (by decide)
  have h5 : ¬(c = '~') := fun he => by subst he; exact absurd h (by decide)
  have h6 : ¬(c = '!') := fun he => by subst he; exact absurd h (by decide)
  have h7 : ¬(c = '(') := fun he => by subst he; exact absurd h (by decide)
  have h8 : ¬(c = ')') := fun he => by subst he; exact absurd h (by decide)
  simp [full.itemTok, h1, h2, h3, h4, h5, h6, h7, h8]

namespace full

/-- `full.parse` on an all-whitespace input: the greedy `\s*` leaves no
lexeme, so the trailing-run analysis decides the outcome: a non-newline
whitespace character is lexed as an unknown one-character operator
(`SyntaxError`), while an empty or all-newline input produces only the `End`
token, and the advance past it raises `StopIteration`. -/
theorem parse_ws (s : String) (hws : s.data.all isWsC = true) :
    parse s =
      .err (if s.data.any (fun c => c ≠ '\n') then Err.unknownOperator
            else Err.stopIteration) := by
  have hall : ∀ c ∈ s.data, isWsC c = true := by
    simpa only [List.all_eq_true] using hws
  have hscan : scanFrom true s.data = trailingWs s.data := by
    rw [scanFrom, scanF_nil true _ _ (dropWhile_all_nil hall),
      takeWhile_all_self hall]
  by_cases hany : s.data.any (fun c => c ≠ '\n') = true
  · rw [if_pos hany]
    have hne : s.data.filter (fun c => c ≠ '\n') ≠ [] := by
      simp only [List.any_eq_true] at hany
      obtain ⟨c, hc, hcn⟩ := hany
      exact List.ne_nil_of_mem (List.mem_filter.mpr ⟨hc, hcn⟩)
    obtain ⟨c, hc⟩ : ∃ c, (s.data.filter (fun c => c ≠ '\n')).getLast? = some c := by
      cases h : (s.data.filter (fun c => c ≠ '\n')).getLast? with
      | none => exact absurd (List.getLast?_eq_none_iff.mp h) hne
      | some c => exact ⟨c, rfl⟩
    have hcmem : c ∈ s.data := by
      have hmem : c ∈ (s.data.filter fun c => c ≠ '\n').getLast? := by
        rw [Option.mem_def]
        exact hc
      obtain ⟨h9, hgc⟩ := List.mem_getLast?_eq_getLast hmem
      have h10 := List.getLast_mem h9
      rw [← hgc] at h10
      exact (List.mem_filter.mp h10).1
    have hts : tokStream s = ⟨[], true⟩ := by
      rw [tokStream, hscan, trailingWs, hc]
      simp [buildStrm, itemTok_ws_none (hall c hcmem)]
    simp only [parse, hts]
    rfl
  · rw [if_neg hany]
    have hfil : s.data.filter (fun c => c ≠ '\n') = [] := by
      rw [List.filter_eq_nil_iff]
      intro a ha
      by_contra hcon
      exact hany (List.any_eq_true.mpr ⟨a, ha, by simpa using hcon⟩)
    have hts : tokStream s = ⟨[.endT], false⟩ := by
      rw [tokStream, hscan, trailingWs, hfil]
      rfl
    simp only [parse, hts, nextT_cons, ok_bind]
    have he := expr_end 0
      (2 * (Strm.mk [Tok.endT] false).toks.length + 8) (by omega)
    rw [he]
    rfl

/-- The token stream of `-n!`. -/
theorem tokStream_neg_fac (n : Nat) :
    tokStream ⟨'-' :: (numeral n ++ ['!'])⟩ =
      ⟨[.sub, .lit n, .fac, .endT], false⟩ := by
  have hr : renderG [([], Lx.sym '-'), ([], Lx.num n), ([], Lx.sym '!')]
      = '-' :: (numeral n ++ ['!']) := by
    simp [renderG, lxStr]
  have hwf : wfLxs [([], Lx.sym '-'), ([], Lx.num n), ([], Lx.sym '!')] = true := by
    simp [wfLxs, lxOk] <;> decide
  have hsep : sepsOk [([], Lx.sym '-'), ([], Lx.num n), ([], Lx.sym '!')] = true := by
    simp [sepsOk, needSep, startsDig, startsStar] <;> decide
  have hscan := scanFrom_renderG true _ hwf hsep (fun h => nomatch h)
  rw [hr] at hscan
  rw [tokStream, show (String.mk ('-' :: (numeral n ++ ['!']))).data
    = '-' :: (numeral n ++ ['!']) from rfl, hscan]
  exact buildStrm_all (T := [.sub, .lit n, .fac]) rfl

/-- `full.parse "-n!"` = `-(n!)`. -/
theorem parse_neg_fac (n : Nat) :
    parse ⟨'-' :: (numeral n ++ ['!'])⟩ = .ok (intV (-(n.factorial : Int))) := by
  simp only [parse, tokStream_neg_fac n, nextT_cons, ok_bind]
  have he := expr_neg_fac n false
    (2 * (Strm.mk [Tok.sub, .lit n, .fac, .endT] false).toks.length + 8) (by omega)
  rw [he]
  simp only [ok_bind]
  rfl

/-- The token stream of two adjacent literals separated by a space. -/
theorem tokStream_two_lits (n m : Nat) :
    tokStream ⟨numeral n ++ (' ' :: numeral m)⟩ = ⟨[.lit n, .lit m, .endT], false⟩ := by
  have hr : renderG [([], Lx.num n), ([' '], Lx.num m)]
      = numeral n ++ (' ' :: numeral m) := by
    simp [renderG, lxStr]
  have hwf : wfLxs [([], Lx.num n), ([' '], Lx.num m)] = true := by
    simp [wfLxs, lxOk] <;> decide
  have hsep : sepsOk [([], Lx.num n), ([' '], Lx.num m)] = true := by
    simp [sepsOk, needSep, startsDig]
  have hscan := scanFrom_renderG true _ hwf hsep (fun h => nomatch h)
  rw [hr] at hscan
  rw [tokStream, show (String.mk (numeral n ++ (' ' :: numeral m))).data
    = numeral n ++ (' ' :: numeral m) from rfl, hscan]
  exact buildStrm_all (T := [.lit n, .lit m]) rfl

/-- `full.parse` on two adjacent literals raises the missing-`lbp`
`AttributeError`. -/
theorem parse_two_lits (n m : Nat) :
    parse ⟨numeral n ++ (' ' :: numeral m)⟩ = .err .noLbp := by
  simp only [parse, tokStream_two_lits n m, nextT_cons, ok_bind]
  have he := expr_two_lits n m [.endT] false
    (2 * (Strm.mk [Tok.lit n, .lit m, .endT] false).toks.length + 8) (by omega)
  rw [he]
  rfl

/-- The scanner on `1)…`: the first two lexemes are fixed and anything after
them is scanned independently. -/
theorem scanFrom_one_rparen (junk : List Char) :
    scanFrom true ('1' :: ')' :: junk) = .num 1 :: .opCh ')' :: scanFrom true junk := by
  rw [scanFrom, scanF_cons true ('1' :: ')' :: junk).length ('1' :: ')' :: junk)
    '1' (')' :: junk) rfl]
  rw [if_pos (by decide)]
  rw [show List.takeWhile isDigC (')' :: junk) = [] from rfl]
  rw [show List.dropWhile isDigC (')' :: junk) = ')' :: junk from rfl]
  rw [show digitsVal ['1'] = 1 from rfl]
  rw [show ('1' :: ')' :: junk).length = junk.length + 1 + 1 from by
    simp [List.length_cons]]
  rw [scanF_cons true (junk.length + 1) (')' :: junk) ')' junk rfl]
  rw [if_neg (by decide)]
  rw [if_neg (by simp)]
  rfl

/-- `full.parse` returns as soon as the loop sees `)` (`lbp 0`); the rest of
the input is never pulled from the generator. -/
theorem parse_one_rparen (junk : List Char) :
    parse ⟨'1' :: ')' :: junk⟩ = .ok (natV 1) := by
  have hts : tokStream ⟨'1' :: ')' :: junk⟩ =
      ⟨.lit 1 :: .rparen :: (buildStrm (scanFrom true junk)).toks,
        (buildStrm (scanFrom true junk)).lexErr⟩ := by
    rw [tokStream, show (String.mk ('1' :: ')' :: junk)).data
      = '1' :: ')' :: junk from rfl, scanFrom_one_rparen]
    rfl
  simp only [parse, hts, nextT_cons, ok_bind]
  have he := expr_lit_rparen 1 (buildStrm (scanFrom true junk)).toks
    (buildStrm (scanFrom true junk)).lexErr
    (2 * (Strm.mk
      (Tok.lit 1 :: .rparen :: (buildStrm (scanFrom true junk)).toks)
      (buildStrm (scanFrom true junk)).lexErr).toks.length + 8) (by omega)
  rw [he]
  simp only [ok_bind]

end full

/-- `math.factorial` of a negative integer raises (`DomainError`). -/
theorem facV_neg (n : Nat) : facV (negV (natV (n + 1))) = .err .domainError := by
  rw [facV, if_neg]
  simp only [Bool.and_eq_true, decide_eq_true_eq]
  rintro ⟨-, hge⟩
  simp only [negV, natV] at hge
  omega

namespace full

/-- The run of `(-k)!` for `k = n+1`: the parenthesised negation evaluates
to a negative integer and `!.led` then raises `DomainError`. -/
theorem expr_paren_neg_fac (n : Nat) (e : Bool) (f : Nat) (hf : 12 ≤ f) :
    expr f 0 ⟨.lparen, ⟨[.sub, .lit (n + 1), .rparen, .fac, .endT], e⟩⟩ =
      .err .domainError := by
  obtain ⟨g1, rfl⟩ : ∃ g, f = g + 1 := ⟨f - 1, by omega⟩
  rw [expr_step]
  simp only [advance_cons, ok_bind]
  obtain ⟨g2, rfl⟩ : ∃ g, g1 = g + 1 := ⟨g1 - 1, by omega⟩
  simp only [nudF]
  obtain ⟨g3, rfl⟩ : ∃ g, g2 = g + 1 := ⟨g2 - 1, by omega⟩
  rw [expr_step]
  simp only [advance_cons, ok_bind]
  obtain ⟨g4, rfl⟩ : ∃ g, g3 = g + 1 := ⟨g3 - 1, by omega⟩
  simp only [nudF]
  obtain ⟨g5, rfl⟩ : ∃ g, g4 = g + 1 := ⟨g4 - 1, by omega⟩
  rw [expr_step]
  simp only [advance_cons, ok_bind, nudF]
  rw [lloop_stop (f := g5) (s := ⟨Tok.rparen, ⟨[Tok.fac, Tok.endT], e⟩⟩) (l := 0)
    (by omega) rfl (by omega)]
  simp only [ok_bind]
  rw [lloop_stop (f := g5 + 1 + 1) (s := ⟨Tok.rparen, ⟨[Tok.fac, Tok.endT], e⟩⟩) (l := 0)
    (by omega) rfl (by omega)]
  simp only [ok_bind]
  simp only [if_true]
  simp only [advance_cons, ok_bind]
  rw [lloop_step (f := g5 + 1 + 1 + 1)
    (s := ⟨Tok.fac, ⟨[Tok.endT], e⟩⟩) (l := 150) rfl (by omega)]
  simp only [advance_cons, ok_bind, ledF, facV_neg]
  rfl

/-- The token stream of `(-k)!`. -/
theorem tokStream_paren_neg_fac (k : Nat) :
    tokStream ⟨'(' :: '-' :: (numeral k ++ [')', '!'])⟩ =
      ⟨[.lparen, .sub, .lit k, .rparen, .fac, .endT], false⟩ := by
  have hr : renderG [([], Lx.sym '('), ([], Lx.sym '-'), ([], Lx.num k),
      ([], Lx.sym ')'), ([], Lx.sym '!')] = '(' :: '-' :: (numeral k ++ [')', '!']) := by
    simp [renderG, lxStr]
  have hwf : wfLxs [([], Lx.sym '('), ([], Lx.sym '-'), ([], Lx.num k),
      ([], Lx.sym ')'), ([], Lx.sym '!')] = true := by
    simp [wfLxs, lxOk] <;> decide
  have hsep : sepsOk [([], Lx.sym '('), ([], Lx.sym '-'), ([], Lx.num k),
      ([], Lx.sym ')'), ([], Lx.sym '!')] = true := by
    simp [sepsOk, needSep, startsDig, startsStar] <;> decide
  have hscan := scanFrom_renderG true _ hwf hsep (fun h => nomatch h)
  rw [hr] at hscan
  rw [tokStream, show (String.mk ('(' :: '-' :: (numeral k ++ [')', '!']))).data
    = '(' :: '-' :: (numeral k ++ [')', '!']) from rfl, hscan]
  exact buildStrm_all (T := [.lparen, .sub, .lit k, .rparen, .fac]) rfl

/-- `full.parse "(-k)!"` raises `DomainError` for every positive literal. -/
theorem parse_paren_neg_fac (n : Nat) :
    parse ⟨'(' :: '-' :: (numeral (n + 1) ++ [')', '!'])⟩ = .err .domainError := by
  simp only [parse, tokStream_paren_neg_fac (n + 1), nextT_cons, ok_bind]
  have he := expr_paren_neg_fac n false
    (2 * (Strm.mk [Tok.lparen, .sub, .lit (n + 1), .rparen, .fac, .endT]
      false).toks.length + 8) (by simp)
  rw [he]
  rfl

/-- `parse` is a function of the token stream alone. -/
theorem parse_congr {s t : String} (h : tokStream s = tokStream t) :
    parse s = parse t := by
  simp only [parse, h]

end full

theorem renderG_append (L1 L2 : List (List Char × Lx)) :
    renderG (L1 ++ L2) = renderG L1 ++ renderG L2 := by
  induction L1 with
  | nil => rfl
  | cons p rest ih =>
    obtain ⟨g, a⟩ := p
    simp [renderG, ih, List.append_assoc]

/-- Appending a final lexeme that does not need a separator from the
previous last lexeme preserves `sepsOk`. -/
theorem sepsOk_snoc (L : List (List Char × Lx)) (g : List Char) (b : Lx)
    (h : sepsOk L = true)
    (h2 : ∀ p : List Char × Lx, L.getLast? = some p → needSep p.2 b = false) :
    sepsOk (L ++ [(g, b)]) = true := by
  induction L with
  | nil => rfl
  | cons p rest ih =>
    cases rest with
    | nil =>
      obtain ⟨g1, a⟩ := p
      have hns := h2 (g1, a) rfl
      simp [sepsOk, hns]
    | cons q rest2 =>
      obtain ⟨g1, a⟩ := p
      obtain ⟨gq, bq⟩ := q
      simp only [sepsOk, Bool.and_eq_true] at h
      obtain ⟨hp, hrest⟩ := h
      have ihh := ih hrest fun p hp2 => h2 p (by
        rw [List.getLast?_cons_cons]
        exact hp2)
      simp only [List.cons_append] at ihh ⊢
      simp only [sepsOk, Bool.and_eq_true]
      exact ⟨hp, ihh⟩

/-- The last lexeme of a chain is a numeral. -/
theorem chainLx_getLast (n0 : Nat) (ops : List (Bool × Nat)) :
    ∃ m, (chainLx n0 ops).getLast? = some ([], Lx.num m) := by
  induction ops generalizing n0 with
  | nil => exact ⟨n0, rfl⟩
  | cons q rest ih =>
    obtain ⟨b, m⟩ := q
    obtain ⟨m2, hm⟩ := ih m
    refine ⟨m2, ?_⟩
    rw [show chainLx n0 ((b, m) :: rest)
      = ([], Lx.num n0) :: ([], opLx b) :: chainLx m rest from by
        simp [chainLx, List.flatMap_cons]]
    rw [List.getLast?_cons_cons]
    rw [show chainLx m rest
      = ([], Lx.num m) :: (rest.flatMap fun p => [([], opLx p.1), ([], Lx.num p.2)])
      from rfl]
    rw [List.getLast?_cons_cons]
    exact hm

namespace full

/-- The token stream of a chain followed by an unmatched `)`. -/
theorem tokStream_chain_rparen (n0 : Nat) (ops : List (Bool × Nat)) :
    tokStream ⟨(chainStr n0 ops).data ++ [')']⟩ =
      ⟨.lit n0 :: chainT ops [.rparen, .endT], false⟩ := by
  have hdata : (chainStr n0 ops).data = renderG (chainLx n0 ops) := rfl
  rw [hdata, show renderG (chainLx n0 ops) ++ [')']
    = renderG (chainLx n0 ops) ++ renderG [([], Lx.sym ')')] from rfl,
    ← renderG_append]
  have hwf : wfLxs (chainLx n0 ops ++ [([], Lx.sym ')')]) = true := by
    rw [wfLxs_append, chainLx_wf]
    decide
  have hsep : sepsOk (chainLx n0 ops ++ [([], Lx.sym ')')]) = true := by
    refine sepsOk_snoc (chainLx n0 ops) [] (Lx.sym ')')
      (by rw [chainLx]; exact chainFlat_seps n0 ops) ?_
    intro p hp
    obtain ⟨m, hm⟩ := chainLx_getLast n0 ops
    rw [hm] at hp
    have hpp : ([] , Lx.num m) = p := by
      injection hp
    rw [← hpp]
    rfl
  rw [tokStream, show (String.mk (renderG (chainLx n0 ops ++ [([], Lx.sym ')')]))).data
    = renderG (chainLx n0 ops ++ [([], Lx.sym ')')]) from rfl]
  rw [scanFrom_renderG true _ hwf hsep (fun h => nomatch h)]
  have hmt : ((chainLx n0 ops ++ [(([] : List Char), Lx.sym ')')]).map fun p => lxItem p.2).map itemTok
      = ((Tok.lit n0 :: ops.flatMap fun p => [opTok p.1, Tok.lit p.2])
          ++ [Tok.rparen]).map some := by
    rw [List.map_append, List.map_append, List.map_append, chainLx,
      List.map_cons, List.map_cons, List.map_map, List.map_cons]
    congr 1
    congr 1
    exact chainFlat_map_toks ops
  rw [buildStrm_all hmt]
  simp [chainT, List.append_assoc]

/-- A well-formed chain followed by an unmatched `)` at top level parses to
the chain's value: the loop stops at `)` (`lbp 0`) and `parse` never checks
that the `End` token was reached. -/
theorem parse_chain_rparen (n0 : Nat) (ops : List (Bool × Nat)) :
    parse ⟨(chainStr n0 ops).data ++ [')']⟩ = .ok (natV (refVal n0 ops)) := by
  simp only [parse, tokStream_chain_rparen n0 ops, nextT_cons, ok_bind]
  have he := expr_chain n0 ops .rparen [.endT] false
    (2 * (Strm.mk (Tok.lit n0 :: chainT ops [.rparen, .endT]) false).toks.length + 8)
    rfl (by simp [chainT_length]; omega)
  rw [he]
  simp only [ok_bind]
  rfl

/-- Two renderings of the same lexemes with different internal whitespace
gaps produce the same token stream. -/
theorem tokStream_gap (L1 L2 : List (List Char × Lx))
    (hmap : L1.map Prod.snd = L2.map Prod.snd)
    (hwf1 : wfLxs L1 = true) (hs1 : sepsOk L1 = true)
    (hwf2 : wfLxs L2 = true) (hs2 : sepsOk L2 = true) :
    tokStream ⟨renderG L1⟩ = tokStream ⟨renderG L2⟩ := by
  have h1 : (L1.map fun p => lxItem p.2) = (L2.map fun p => lxItem p.2) := by
    have h0 : (L1.map Prod.snd).map lxItem = (L2.map Prod.snd).map lxItem := by
      rw [hmap]
    simpa [List.map_map, Function.comp] using h0
  show buildStrm (scanFrom true (String.mk (renderG L1)).data)
    = buildStrm (scanFrom true (String.mk (renderG L2)).data)
  rw [show (String.mk (renderG L1)).data = renderG L1 from rfl,
    show (String.mk (renderG L2)).data = renderG L2 from rfl,
    scanFrom_renderG true L1 hwf1 hs1 (fun h => nomatch h),
    scanFrom_renderG true L2 hwf2 hs2 (fun h => nomatch h), h1]

end full

/-! ## The claims -/

/-- C1: for every well-formed input composed solely of non-negative integer
literals and the operators `+` and `*`, `full.parse` returns the value given
by standard arithmetic with `*` binding tighter than `+` and left-to-right
evaluation of equal-precedence operators; in particular
`parse "1+2*3*4+5" = 30`. -/
theorem claim_C1 :
    (∀ (n0 : Nat) (ops : List (Bool × Nat)),
      full.parse (chainStr n0 ops) = .ok (natV (refVal n0 ops)))
    ∧ full.parse "1+2*3*4+5" = .ok (natV 30) :=
  ⟨fun n0 ops => full.parse_chain n0 ops, by decide⟩

/-- C2: infix `**` is right-associative (its led recurses at rbp 29, one
less than its lbp 30), so a chained power evaluates as a right fold; in
particular `parse "2**2**3" = 256 = 2 ^ (2 ^ 3)` and not `(2 ^ 2) ^ 3 = 64`. -/
theorem claim_C2 :
    (∀ (a : Nat) (vs : List Nat),
      full.parse (powStr a vs) = .ok (natV (powFoldr a vs)))
    ∧ full.parse "2**2**3" = .ok (natV 256)
    ∧ full.parse "2**2**3" ≠ .ok (natV 64) :=
  ⟨fun a vs => full.parse_pow a vs, by decide, by decide⟩

/-- C3: postfix `!` (lbp 150) binds inside the operand of unary prefix `-`
(nud rbp 100): for every literal `n`, `parse "-n!"` evaluates to
`-(n !)`; in particular `parse "-1!" = -1` and `parse "-3!" = -6`. -/
theorem claim_C3 :
    (∀ n : Nat,
      full.parse ⟨'-' :: (numeral n ++ ['!'])⟩ = .ok (intV (-(n.factorial : Int))))
    ∧ full.parse "-1!" = .ok (intV (-1))
    ∧ full.parse "-3!" = .ok (intV (-6)) :=
  ⟨fun n => full.parse_neg_fac n, by decide, by decide⟩

/-- C4 (amended): the spec says a current token with no led is treated as
having lbp 0 and the loop ends without failure, but `literal_token` carries
no `lbp` attribute at all, so for two adjacent literals the loop's
`rbp < token.lbp` test raises `AttributeError` instead of returning the
first literal: for all `n m`, `parse "n m"` fails with the missing-lbp
error, while a single literal (where the loop inspects the `End` token,
which does carry lbp 0) parses fine. -/
theorem claim_C4 :
    (∀ n m : Nat,
      full.parse ⟨numeral n ++ (' ' :: numeral m)⟩ = .err .noLbp)
    ∧ full.parse "1" = .ok (natV 1) :=
  ⟨fun n m => full.parse_two_lits n m, by decide⟩

/-- C4 counterexample: on `"1 2"` expression does not return the first
literal's value without error; the loop-condition check raises the
missing-`lbp` `AttributeError`. -/
theorem claim_C4_cex :
    full.parse "1 2" = .err .noLbp ∧ full.parse "1 2" ≠ .ok (natV 1) := by
  decide

/-- C5 (amended): `basic.parse` and `full.parse` agree on every well-formed
`+`/`*` chain of literals, but not on every string over digits, whitespace,
`+` and `*`: `basic.py`'s token pattern has no `\*\*` alternative and its
`+`/`*` tokens have no nud, so `"2**3"` (only digits and `*`) parses to 8 in
full but raises `AttributeError` (missing nud) in basic, and `"+1"` parses
to 1 in full but fails in basic. -/
theorem claim_C5 :
    (∀ (n0 : Nat) (ops : List (Bool × Nat)),
      basic.parse (chainStr n0 ops) = full.parse (chainStr n0 ops))
    ∧ basic.parse "+1" = .err .noNud
    ∧ full.parse "+1" = .ok (natV 1) :=
  ⟨fun n0 ops => by rw [basic.parse_chainB, full.parse_chain],
    by decide, by decide⟩

/-- C5 counterexample: `"2**3"` contains only decimal digits and `*`, yet
the two variants disagree on it. -/
theorem claim_C5_cex :
    basic.parse "2**3" ≠ full.parse "2**3"
    ∧ basic.parse "2**3" = .err .noNud
    ∧ full.parse "2**3" = .ok (natV 8) := by
  decide

/-- C6 (amended): empty or whitespace-only input fails, but not with the
`End`-token-has-no-nud error the spec names: the generator yields no token
before `End`, so `expression`'s unguarded `next(tokens)` after taking `End`
as `t` raises `StopIteration`; and whitespace-only input containing a
non-newline character never even reaches the parser, because the regex
backtracks and lexes the last such character as an unknown operator. -/
theorem claim_C6 (s : String) (hws : s.data.all isWsC = true) :
    full.parse s =
      .err (if s.data.any (fun c => c ≠ '\n') then Err.unknownOperator
            else Err.stopIteration) :=
  full.parse_ws s hws

/-- C6 witness: the single-space input is whitespace-only and fails with
the unknown-operator lex error. -/
theorem claim_C6_witness :
    (" ".data.all isWsC = true)
    ∧ full.parse " " =
        .err (if " ".data.any (fun c => c ≠ '\n') then Err.unknownOperator
              else Err.stopIteration) :=
  ⟨by decide, claim_C6 " " (by decide)⟩

/-- C6 counterexample: neither the empty input nor `" "` fails with the
missing-nud (`UnexpectedToken`) error: the former raises `StopIteration`,
the latter an unknown-operator lex error. -/
theorem claim_C6_cex :
    full.parse "" = .err .stopIteration
    ∧ full.parse " " = .err .unknownOperator
    ∧ full.parse "" ≠ .err .noNud
    ∧ full.parse " " ≠ .err .noNud := by
  decide

/-- C7 (amended): an unmatched `)` after a complete top-level expression
does not make `parse` fail: `)` has lbp 0, so the loop just stops and
`parse` returns the expression's value, never checking that `End` was
reached; `)` only raises the missing-nud error where a primary is
expected, as in `")"` or `"1+)"`. -/
theorem claim_C7 :
    (∀ (n0 : Nat) (ops : List (Bool × Nat)),
      full.parse ⟨(chainStr n0 ops).data ++ [')']⟩ = .ok (natV (refVal n0 ops)))
    ∧ full.parse ")" = .err .noNud
    ∧ full.parse "1+)" = .err .noNud :=
  ⟨fun n0 ops => full.parse_chain_rparen n0 ops, by decide, by decide⟩

/-- C7 counterexample: `parse "1)"` returns 1 instead of failing with the
unexpected-token error the spec promises. -/
theorem claim_C7_cex :
    full.parse "1)" = .ok (natV 1) ∧ full.parse "1)" ≠ .err .noNud := by
  decide

/-- C8 (amended): whitespace between lexemes is immaterial — two inputs
made of the same lexeme sequence with different internal whitespace gaps
tokenize and parse identically — but whitespace *after* the last lexeme is
not skipped: the regex backtracks and lexes a trailing non-newline
whitespace character as an unknown operator, so `parse "1 " ≠ parse "1"`. -/
theorem claim_C8 (L1 L2 : List (List Char × Lx))
    (hmap : L1.map Prod.snd = L2.map Prod.snd)
    (hwf1 : wfLxs L1 = true) (hs1 : sepsOk L1 = true)
    (hwf2 : wfLxs L2 = true) (hs2 : sepsOk L2 = true) :
    full.tokStream ⟨renderG L1⟩ = full.tokStream ⟨renderG L2⟩
    ∧ full.parse ⟨renderG L1⟩ = full.parse ⟨renderG L2⟩ :=
  have h := full.tokStream_gap L1 L2 hmap hwf1 hs1 hwf2 hs2
  ⟨h, full.parse_congr h⟩

/-- C8 witness: `"1 + 2"` and `"1+2"` render the same lexemes with
different gaps and parse to the same value. -/
theorem claim_C8_witness :
    full.parse "1 + 2" = full.parse "1+2"
    ∧ full.parse "1+2" = .ok (natV 3) := by
  refine ⟨?_, by decide⟩
  have h := claim_C8
    [(([] : List Char), Lx.num 1), ([' '], Lx.sym '+'), ([' '], Lx.num 2)]
    [(([] : List Char), Lx.num 1), (([] : List Char), Lx.sym '+'),
      (([] : List Char), Lx.num 2)]
    (by decide) (by decide) (by decide) (by decide) (by decide)
  have e1 : (⟨renderG [(([] : List Char), Lx.num 1), ([' '], Lx.sym '+'),
      ([' '], Lx.num 2)]⟩ : String) = "1 + 2" := by
    simp [renderG, lxStr, numeral, dChar]
  have e2 : (⟨renderG [(([] : List Char), Lx.num 1),
      (([] : List Char), Lx.sym '+'), (([] : List Char), Lx.num 2)]⟩ : String)
      = "1+2" := by
    simp [renderG, lxStr, numeral, dChar]
  rw [e1, e2] at h
  exact h.2

/-- C8 counterexample: appending a whitespace character after the last
lexeme changes the result: `parse "1 "` fails with the unknown-operator
lex error while `parse "1"` returns 1. -/
theorem claim_C8_cex :
    full.parse "1 " = .err .unknownOperator
    ∧ full.parse "1" = .ok (natV 1)
    ∧ full.parse "1 " ≠ full.parse "1" := by
  decide

/-- C9: `!`.led computes the factorial of its left operand and fails with
`DomainError` when it is negative or non-integral: `parse "(-k)!"` fails
with `DomainError` for every positive literal `k`, and so do
`parse "(-1)!"` and the non-integral `parse "(1/2)!"`. -/
theorem claim_C9 :
    (∀ n : Nat,
      full.parse ⟨'(' :: '-' :: (numeral (n + 1) ++ [')', '!'])⟩
        = .err .domainError)
    ∧ full.parse "(-1)!" = .err .domainError
    ∧ full.parse "(1/2)!" = .err .domainError :=
  ⟨fun n => full.parse_paren_neg_fac n, by decide, by decide⟩

/-- C10: input after a complete top-level expression and a closing `)` is
never examined: for every suffix `junk`, `parse ("1)" ++ junk)` returns 1;
in particular `parse "1)$" = 1` even though the scanner flags `$` as an
unknown operator, as the stream's error bit shows. -/
theorem claim_C10 :
    (∀ junk : List Char, full.parse ⟨'1' :: ')' :: junk⟩ = .ok (natV 1))
    ∧ full.parse "1)$" = .ok (natV 1)
    ∧ (full.tokStream "1)$").lexErr = true :=
  ⟨fun junk => full.parse_one_rparen junk, by decide, by decide⟩

end Pratt
